import Mathlib

/-!
Shallow embedding of the XUnit spec reporter
(src/build/reporters/xunit-spec.js) together with proofs about it.

The reporter listens to mocha runner events, buffers test records, prints an
indented console transcript and, at run end, emits a JUnit/XUnit style XML
document.  Pure string-building code is translated to Lean functions; the
event-driven part becomes an explicit state machine; JS dynamic failures
(Array with a negative length) are modelled with Except.
-/

namespace XUnit

/-- Outcome of a terminated test (mocha: STATE_FAILED / isPending / passed). -/
inductive Outcome
  | passed
  | failed
  | pending
deriving DecidableEq, Repr

/-- The data of one mocha test object, as the reporter reads it:
title, parent.fullTitle(), duration (in ms; none models a missing or
malformed value, i.e. a JS undefined/NaN), state, speed, and for failed
tests the error message, stack and the diff string computed at line 215 of
the source (already including its leading newline; empty when diffs are
hidden or not applicable). -/
structure TestRec where
  title : String
  classname : String
  duration : Option Nat
  outcome : Outcome
  speed : String
  errMessage : String
  errStack : String
  diff : String
deriving DecidableEq, Repr

/-- Escape translation of a single character: the four XML special
characters become entity references, everything else is kept. -/
def escChar (c : Char) : List Char :=
  if c = '&' then ['&', 'a', 'm', 'p', ';']
  else if c = '<' then ['&', 'l', 't', ';']
  else if c = '>' then ['&', 'g', 't', ';']
  else if c = '"' then ['&', 'q', 'u', 'o', 't', ';']
  else [c]

/-- Character-list version of the escaper. -/
def escList : List Char → List Char
  | [] => []
  | c :: rest => escChar c ++ escList rest

/-- Modelled from the spec: the escape helper the source imports from the
mocha utils library (line 29), which is not under src/.  Per the spec, all
attribute values and all text content are XML-escaped, the escaped set
containing at minimum the ampersand, the angle brackets and the double
quote. -/
def escape (s : String) : String := String.mk (escList s.data)

/-- Entity decoding as performed by a standard XML parser on the four
predefined entities used by the escaper. -/
def unescList : List Char → List Char
  | [] => []
  | c :: rest =>
    if c = '&' ∧ rest.take 4 = ['a', 'm', 'p', ';'] then
      '&' :: unescList (rest.drop 4)
    else if c = '&' ∧ rest.take 3 = ['l', 't', ';'] then
      '<' :: unescList (rest.drop 3)
    else if c = '&' ∧ rest.take 3 = ['g', 't', ';'] then
      '>' :: unescList (rest.drop 3)
    else if c = '&' ∧ rest.take 5 = ['q', 'u', 'o', 't', ';'] then
      '"' :: unescList (rest.drop 5)
    else
      c :: unescList rest
termination_by l => l.length
decreasing_by
  all_goals simp only [List.length_drop, List.length_cons]
  all_goals omega

/-- String version of the entity decoder. -/
def unescape (s : String) : String := String.mk (unescList s.data)

/-- Decimal digits of a natural number, most significant first
(the rendering JS String() applies to a non-negative integer). -/
def natToChars (n : Nat) : List Char :=
  if n < 10 then [Nat.digitChar n]
  else natToChars (n / 10) ++ [Nat.digitChar (n % 10)]
termination_by n
decreasing_by
  exact Nat.div_lt_self (by omega) (by omega)

/-- Decimal string of a natural number. -/
def natToStr (n : Nat) : String := String.mk (natToChars n)

/-- The three decimal digits of a remainder modulo 1000, zero padded. -/
def pad3 (fr : Nat) : List Char :=
  [Nat.digitChar (fr / 100), Nat.digitChar (fr / 10 % 10), Nat.digitChar (fr % 10)]

/-- Remove trailing zero characters. -/
def stripTrailingZeros (l : List Char) : List Char :=
  (l.reverse.dropWhile (fun c => c = '0')).reverse

/-- The string JS produces for the expression duration / 1000 or-else 0:
a missing (undefined) duration gives NaN, which the or-else turns into 0;
otherwise the exact decimal of n / 1000 with trailing zeros removed, as JS
prints for these values.  Durations are exact naturals here; binary
floating point is out of scope of this embedding. -/
def jsDiv1000Str (d : Option Nat) : String :=
  match d with
  | none => "0"
  | some n =>
    if n % 1000 = 0 then natToStr (n / 1000)
    else natToStr (n / 1000) ++ "." ++ String.mk (stripTrailingZeros (pad3 (n % 1000)))

/-- The rational value of the JS expression duration / 1000 or-else 0. -/
def timeVal (d : Option Nat) : ℚ :=
  match d with
  | none => 0
  | some n => (n : ℚ) / 1000

/-- Rendering of an attribute list: key="escaped value" pairs joined by
single spaces, the recursive reading of pairs.join(' ') at lines 245-251
of the source. -/
def renderAttrs : List (String × String) → String
  | [] => ""
  | [p] => p.1 ++ "=\"" ++ escape p.2 ++ "\""
  | p :: q :: rest => p.1 ++ "=\"" ++ escape p.2 ++ "\"" ++ " " ++ renderAttrs (q :: rest)

/-- The attribute block of an opening tag: a leading space and the joined
pairs when any pair is present, nothing otherwise (line 251). -/
def attrsStr (attrs : List (String × String)) : String :=
  if attrs.length ≠ 0 then " " ++ renderAttrs attrs else ""

/-- The tag helper (lines 240-256): opening bracket, name, the attribute
pairs when present, then either a self-closing or a plain bracket; a truthy
(non-empty) content string is followed by the matching close tag. -/
def tag (name : String) (attrs : List (String × String)) (close : Bool)
    (content : Option String) : String :=
  let tagEnd := if close then "/>" else ">"
  let opening := "<" ++ name ++ attrsStr attrs ++ tagEnd
  match content with
  | some c => if c = "" then opening else opening ++ c ++ "</" ++ name ++ tagEnd
  | none => opening

/-- The attribute object built for one testcase (lines 207-211). -/
def caseAttrs (t : TestRec) : List (String × String) :=
  [("classname", t.classname), ("name", t.title), ("time", jsDiv1000Str t.duration)]

/-- Body of the failure element (line 221): escaped message, escaped diff,
a literal newline, escaped stack. -/
def failureBody (t : TestRec) : String :=
  escape t.errMessage ++ escape t.diff ++ "\n" ++ escape t.errStack

/-- XUnit.prototype.test (lines 206-229): one line of XML per record. -/
def testcaseTag (t : TestRec) : String :=
  if t.outcome = Outcome.failed then
    tag "testcase" (caseAttrs t) false
      (some (tag "failure" [] false (some (failureBody t))))
  else if t.outcome = Outcome.pending then
    tag "testcase" (caseAttrs t) false (some (tag "skipped" [] true none))
  else
    tag "testcase" (caseAttrs t) true none

/-- A runner lifecycle event as observed by the reporter's handlers. -/
inductive Event
  | testPass (t : TestRec)
  | testFail (t : TestRec)
  | testPending (t : TestRec)
  | suiteBegin (title : String)
  | suiteEnd
  | runBegin
deriving DecidableEq, Repr

/-- Modelled from the spec: the stats object maintained by the mocha Base
reporter (not under src/); per the spec the RunSummary holds the total
test count, the passed count, the failed count and the total duration,
each terminating event contributing one to the total. -/
structure Stats where
  tests : Nat
  passes : Nat
  failures : Nat
  duration : Option Nat
deriving DecidableEq, Repr

/-- One event's contribution to the run summary counters. -/
def statsStep (s : Stats) (e : Event) : Stats :=
  match e with
  | Event.testPass _ => { s with tests := s.tests + 1, passes := s.passes + 1 }
  | Event.testFail _ => { s with tests := s.tests + 1, failures := s.failures + 1 }
  | Event.testPending _ => { s with tests := s.tests + 1 }
  | _ => s

/-- The run summary at run end, for a given total duration. -/
def statsOf (evts : List Event) (dur : Option Nat) : Stats :=
  evts.foldl statsStep { tests := 0, passes := 0, failures := 0, duration := dur }

/-- The record carried by a terminating (pass / fail / pending) event. -/
def terminatingRecord : Event → Option TestRec
  | Event.testPass t => some t
  | Event.testFail t => some t
  | Event.testPending t => some t
  | _ => none

/-- All test records of an event list, in arrival order. -/
def terminatingRecords (evts : List Event) : List TestRec :=
  evts.filterMap terminatingRecord

def isTerminating (e : Event) : Bool := (terminatingRecord e).isSome

def isFail : Event → Bool
  | Event.testFail _ => true
  | _ => false

def isPass : Event → Bool
  | Event.testPass _ => true
  | _ => false

def isSuiteBegin : Event → Bool
  | Event.suiteBegin _ => true
  | _ => false

def isSuiteEnd : Event → Bool
  | Event.suiteEnd => true
  | _ => false

def countBegins (evts : List Event) : Nat := evts.countP isSuiteBegin

def countEnds (evts : List Event) : Nat := evts.countP isSuiteEnd

/-- The root element attribute object (lines 125-133): name, tests, a
literal zero for failures, errors equal to the failed count, skipped
derived by subtraction, the timestamp string, and the total time. -/
def rootAttrs (suiteName timestamp : String) (s : Stats) : List (String × String) :=
  [("name", suiteName),
   ("tests", natToStr s.tests),
   ("failures", natToStr 0),
   ("errors", natToStr s.failures),
   ("skipped", natToStr (s.tests - s.failures - s.passes)),
   ("timestamp", timestamp),
   ("time", jsDiv1000Str s.duration)]

/-- The opening testsuite line written at run end (lines 122-136). -/
def rootOpenTag (suiteName timestamp : String) (s : Stats) : String :=
  tag "testsuite" (rootAttrs suiteName timestamp s) false none

/-- The lines written at run end: the root open tag, one testcase line per
buffered record in buffer order, the root close tag (lines 121-142). -/
def runEndLines (suiteName timestamp : String) (s : Stats)
    (tests : List TestRec) : List String :=
  (rootOpenTag suiteName timestamp s :: tests.map testcaseTag) ++ ["</testsuite>"]

/-- The text produced by a sequence of write calls: each written line is
terminated by a newline (XUnit.prototype.write, line 193). -/
def writeAll : List String → String
  | [] => ""
  | l :: ls => l ++ "\n" ++ writeAll ls

/-- The full document text at run end. -/
def xmlDocument (suiteName timestamp : String) (s : Stats)
    (tests : List TestRec) : String :=
  writeAll (runEndLines suiteName timestamp s tests)

/-- The indent helper (lines 62-64): JS Array(k).join of a two-space
separator yields max (k-1) 0 copies of the separator for a non-negative k
and throws a RangeError for a negative k. -/
def indent (k : Int) : Except String String :=
  if k < 0 then Except.error "Invalid array length"
  else Except.ok (String.join (List.replicate ((k - 1).toNat) "  "))

/-- The %d rendering used in the console pass line: a missing duration
prints as NaN. -/
def jsPercentD (d : Option Nat) : String :=
  match d with
  | some n => natToStr n
  | none => "NaN"

/-- Reporter state mutated by the event handlers: the buffered records,
the indentation counter, the failure counter, and the console transcript.
Colour wrapping is cosmetic passthrough and is omitted from console lines. -/
structure RState where
  tests : List TestRec
  indents : Int
  n : Nat
  console : List String
deriving DecidableEq, Repr

/-- One event handler step (lines 94-162).  The pass / fail / pending and
suite-begin handlers compute the indent string, which can throw; suite-end
and run-begin cannot. -/
def step (st : RState) : Event → Except String RState
  | Event.testPending t => do
    let ind ← indent st.indents
    Except.ok { st with
      tests := st.tests ++ [t],
      console := st.console ++ [ind ++ "  - " ++ t.title] }
  | Event.testPass t => do
    let ind ← indent st.indents
    let line :=
      if t.speed = "fast" then ind ++ "  ✓ " ++ t.title
      else ind ++ "  ✓ " ++ t.title ++ " (" ++ jsPercentD t.duration ++ "ms)"
    Except.ok { st with
      tests := st.tests ++ [t],
      console := st.console ++ [line] }
  | Event.testFail t => do
    let ind ← indent st.indents
    Except.ok { st with
      tests := st.tests ++ [t],
      n := st.n + 1,
      console := st.console ++ [ind ++ "  " ++ natToStr (st.n + 1) ++ ") " ++ t.title] }
  | Event.suiteBegin title => do
    let ind ← indent (st.indents + 1)
    Except.ok { st with
      indents := st.indents + 1,
      console := st.console ++ [ind ++ title] }
  | Event.suiteEnd =>
    Except.ok { st with
      indents := st.indents - 1,
      console := st.console ++ (if st.indents - 1 = 1 then [""] else []) }
  | Event.runBegin =>
    Except.ok { st with console := st.console ++ [""] }

/-- The reporter's initial state. -/
def initState : RState := { tests := [], indents := 0, n := 0, console := [] }

/-- Run the handlers from a given state over an event list. -/
def runFrom (st : RState) (evts : List Event) : Except String RState :=
  evts.foldlM step st

/-- Run the handlers from the initial state. -/
def run (evts : List Event) : Except String RState := runFrom initState evts

/-- One observable event of the teardown trace. -/
inductive SinkEvent
  | wrote (chunk : String)
  | closed
  | callback (failures : Nat)
deriving DecidableEq, Repr

/-- XUnit.prototype.done (lines 176-184), with the owned file stream
modelled from the spec as its queue of pending chunks (the Node stream end
semantics is runtime behaviour, not under src/): ending the stream flushes
every queued chunk, finishes the close, and only then invokes the
callback; with no file stream the callback is invoked immediately. -/
def done (queued : Option (List String)) (failures : Nat) : List SinkEvent :=
  match queued with
  | some chunks =>
    chunks.map SinkEvent.wrote ++ [SinkEvent.closed, SinkEvent.callback failures]
  | none => [SinkEvent.callback failures]

/-- Reporter options as read from options.reporterOptions. -/
structure ReporterOptions where
  output : Option String
  suiteName : Option String
deriving DecidableEq, Repr

/-- The options object passed to the constructor. -/
structure Options where
  reporterOptions : Option ReporterOptions
deriving DecidableEq, Repr

/-- JS truthiness of a possibly-undefined string: undefined and the empty
string are falsy. -/
def truthy : Option String → Bool
  | none => false
  | some s => !(s == "")

/-- Output path resolution (lines 72-79): start from the environment
variable MOCHA_FILE; the reporter option overrides only when it is truthy
and the current value is falsy. -/
def resolveOutputPath (env : Option String) (options : Option Options) : Option String :=
  let outputPath := env
  match options with
  | some o =>
    match o.reporterOptions with
    | some ro => if truthy ro.output && !truthy outputPath then ro.output else outputPath
    | none => outputPath
  | none => outputPath

/-- The reporter option suiteName when present. -/
def configSuiteName (options : Option Options) : Option String :=
  match options with
  | some o =>
    match o.reporterOptions with
    | some ro => ro.suiteName
    | none => none
  | none => none

/-- The reporter option output when present. -/
def configOutput (options : Option Options) : Option String :=
  match options with
  | some o =>
    match o.reporterOptions with
    | some ro => ro.output
    | none => none
  | none => none

/-- Suite name resolution (line 92): the configured name when truthy,
else the default. -/
def resolveSuiteName (options : Option Options) : String :=
  let sn := configSuiteName options
  if truthy sn then sn.getD "" else "Mocha Tests"

/-- Result of a successful construction: the resolved path, whether a file
stream was opened, and the suite name. -/
structure CtorResult where
  outputPath : Option String
  fileStream : Bool
  suiteName : String
deriving DecidableEq, Repr

/-- The constructor (lines 53-92) restricted to its configuration logic:
when the resolved output path is truthy and the runtime offers no
createWriteStream, it throws the unsupported error before touching the
file system; otherwise it succeeds, opening a file stream exactly when the
resolved path is truthy. -/
def xunitCtor (env : Option String) (options : Option Options)
    (hasCreateWriteStream : Bool) : Except String CtorResult :=
  let outputPath := resolveOutputPath env options
  if truthy outputPath then
    if !hasCreateWriteStream then
      Except.error "file output not supported in browser"
    else
      Except.ok { outputPath := outputPath, fileStream := true,
                  suiteName := resolveSuiteName options }
  else
    Except.ok { outputPath := outputPath, fileStream := false,
                suiteName := resolveSuiteName options }

/-- Value of a digit string, most significant digit first. -/
def digitsVal (l : List Char) : Nat :=
  l.foldl (fun a c => a * 10 + (c.toNat - '0'.toNat)) 0

/-- Numeric reading of a plain decimal string (optionally with a dot and a
fractional part), the way a consumer of the report reads the time
attribute back.  Returns none on anything that is not a plain decimal. -/
def decVal (s : String) : Option ℚ :=
  let ip := s.data.takeWhile Char.isDigit
  let rest := s.data.drop ip.length
  if ip.isEmpty then none
  else if rest = [] then some (digitsVal ip : ℚ)
  else if rest.head? = some '.' then
    let fr := rest.tail
    if fr ≠ [] ∧ fr.all Char.isDigit then
      some ((digitsVal ip : ℚ) + (digitsVal fr : ℚ) / (10 : ℚ) ^ fr.length)
    else none
  else none

/-- A character allowed in an XML name, for the tag fragment this
reporter emits. -/
def isNameChar (c : Char) : Bool :=
  c.isAlphanum || c = '_' || c = '-' || c = '.' || c = ':'

/-- A well-formed attribute or element name: non-empty, name chars only. -/
def attrKeyOk (k : String) : Bool :=
  !k.data.isEmpty && k.data.all isNameChar

/-- Entity well-formedness of raw character data: every ampersand starts
one of the four predefined entity references the escaper emits.  A
standard XML parser rejects any other bare ampersand. -/
def ampOk : List Char → Bool
  | [] => true
  | c :: rest =>
    if c = '&' then
      ((rest.take 4 == ['a', 'm', 'p', ';']) && ampOk (rest.drop 4))
      || ((rest.take 3 == ['l', 't', ';']) && ampOk (rest.drop 3))
      || ((rest.take 3 == ['g', 't', ';']) && ampOk (rest.drop 3))
      || ((rest.take 5 == ['q', 'u', 'o', 't', ';']) && ampOk (rest.drop 5))
    else ampOk rest
termination_by l => l.length
decreasing_by
  all_goals simp only [List.length_drop, List.length_cons]
  all_goals omega

/-- A parsed XML node: an element with attributes and children, or
character data.  Attribute values and text hold the raw (still escaped)
characters exactly as they stand in the document. -/
inductive XNode
  | elem (name : String) (attrs : List (String × String)) (children : List XNode)
  | text (content : String)
deriving Repr

/-- The name token at the head of the input. -/
def takeName (l : List Char) : Option (List Char × List Char) :=
  let nm := l.takeWhile isNameChar
  if nm = [] then none else some (nm, l.drop nm.length)

/-- Attribute-list parser: space separated key="value" pairs, stopping
before the closing bracket; a value runs to the next double quote and
must carry well-formed entities. -/
def parseAttrs : Nat → List Char → Option (List (String × String) × List Char)
  | 0, _ => none
  | fuel + 1, l =>
    let l1 := l.dropWhile (fun c => c = ' ')
    if l1.head? = some '>' ∨ l1.head? = some '/' then some ([], l1)
    else
      match takeName l1 with
      | none => none
      | some (nm, r1) =>
        if r1.take 2 = ['=', '"'] then
          let r2 := r1.drop 2
          let v := r2.takeWhile (fun c => c ≠ '"')
          if ampOk v then
            if (r2.drop v.length).head? = some '"' then
              match parseAttrs fuel ((r2.drop v.length).tail) with
              | some (rest, r4) => some ((String.mk nm, String.mk v) :: rest, r4)
              | none => none
            else none
          else none
        else none

mutual

/-- Recursive-descent element parser for the XML fragment the reporter
writes: an opening tag with attributes, then either a self-closing
bracket or children (elements and non-empty text runs with well-formed
entities) followed by the matching close tag. -/
def parseElement : Nat → List Char → Option (XNode × List Char)
  | 0, _ => none
  | fuel + 1, l =>
    if l.head? = some '<' then
      match takeName l.tail with
      | none => none
      | some (nm, r1) =>
        match parseAttrs (r1.length + 1) r1 with
        | none => none
        | some (attrs, r2) =>
          if r2.take 2 = ['/', '>'] then
            some (XNode.elem (String.mk nm) attrs [], r2.drop 2)
          else if r2.head? = some '>' then
            match parseChildren fuel r2.tail with
            | none => none
            | some (kids, r3) =>
              if r3.take 2 = ['<', '/'] ∧ (r3.drop 2).take nm.length = nm ∧
                  ((r3.drop 2).drop nm.length).head? = some '>' then
                some (XNode.elem (String.mk nm) attrs kids,
                  ((r3.drop 2).drop nm.length).tail)
              else none
          else none
    else none

/-- Child-sequence parser: stops at a close tag or at the end of input. -/
def parseChildren : Nat → List Char → Option (List XNode × List Char)
  | 0, _ => none
  | fuel + 1, l =>
    if l = [] then some ([], [])
    else if l.take 2 = ['<', '/'] then some ([], l)
    else if l.head? = some '<' then
      match parseElement fuel l with
      | none => none
      | some (node, r1) =>
        match parseChildren fuel r1 with
        | none => none
        | some (kids, r2) => some (node :: kids, r2)
    else
      let txt := l.takeWhile (fun c => c ≠ '<')
      if ampOk txt then
        match parseChildren fuel (l.drop txt.length) with
        | none => none
        | some (kids, r1) => some (XNode.text (String.mk txt) :: kids, r1)
      else none

end

/-- Whole-document acceptance, the way a standard XML parser reads the
emitted file: one root element followed by the trailing newline of the
last write. -/
def parseDoc (s : String) : Option XNode :=
  match parseElement s.data.length s.data with
  | some (root, rest) => if rest = ['\n'] then some root else none
  | none => none

mutual

/-- Entity decoding of a parsed tree: attribute values and text runs are
decoded, names are left alone. -/
def decodeNode : XNode → XNode
  | XNode.elem nm attrs kids =>
    XNode.elem nm (attrs.map fun p => (p.1, unescape p.2)) (decodeKids kids)
  | XNode.text s => XNode.text (unescape s)

/-- Entity decoding of a child list. -/
def decodeKids : List XNode → List XNode
  | [] => []
  | k :: ks => decodeNode k :: decodeKids ks

end

/-- An attribute list with its values escaped, as the raw parse of a
rendered tag returns it. -/
def escapedAttrs (attrs : List (String × String)) : List (String × String) :=
  attrs.map fun p => (p.1, escape p.2)

/-- The raw (escaped) tree a parser yields for one testcase line. -/
def caseNodeRaw (t : TestRec) : XNode :=
  if t.outcome = Outcome.failed then
    XNode.elem "testcase" (escapedAttrs (caseAttrs t))
      [XNode.elem "failure" [] [XNode.text (failureBody t)]]
  else if t.outcome = Outcome.pending then
    XNode.elem "testcase" (escapedAttrs (caseAttrs t)) [XNode.elem "skipped" [] []]
  else
    XNode.elem "testcase" (escapedAttrs (caseAttrs t)) []

/-- The decoded tree for one testcase: original classname, title and time
strings, and for a failure the original message, diff and stack joined
exactly as the reporter concatenates them. -/
def caseNodeDecoded (t : TestRec) : XNode :=
  if t.outcome = Outcome.failed then
    XNode.elem "testcase" (caseAttrs t)
      [XNode.elem "failure" []
        [XNode.text (t.errMessage ++ t.diff ++ "\n" ++ t.errStack)]]
  else if t.outcome = Outcome.pending then
    XNode.elem "testcase" (caseAttrs t) [XNode.elem "skipped" [] []]
  else
    XNode.elem "testcase" (caseAttrs t) []

/-- Raw children of the parsed root: each testcase line followed by the
newline the writer appends. -/
def caseChildrenRaw : List TestRec → List XNode
  | [] => []
  | t :: ts => caseNodeRaw t :: XNode.text "\n" :: caseChildrenRaw ts

/-- Decoded children of the root. -/
def caseChildrenDecoded : List TestRec → List XNode
  | [] => []
  | t :: ts => caseNodeDecoded t :: XNode.text "\n" :: caseChildrenDecoded ts

/-- The raw parse of the whole emitted document. -/
def docNodeRaw (suiteName timestamp : String) (s : Stats)
    (tests : List TestRec) : XNode :=
  XNode.elem "testsuite" (escapedAttrs (rootAttrs suiteName timestamp s))
    (XNode.text "\n" :: caseChildrenRaw tests)

/-- The decoded document: every attribute value and every text run equals
the original string it was rendered from. -/
def docNodeDecoded (suiteName timestamp : String) (s : Stats)
    (tests : List TestRec) : XNode :=
  XNode.elem "testsuite" (rootAttrs suiteName timestamp s)
    (XNode.text "\n" :: caseChildrenDecoded tests)

/-- The character stream of the testcase lines, each followed by its
newline. -/
def casesChunk : List TestRec → List Char
  | [] => []
  | t :: ts => (testcaseTag t).data ++ '\n' :: casesChunk ts

end XUnit

namespace XUnit

/-! ## Basic helper lemmas -/

@[simp] theorem data_mk (l : List Char) : (String.mk l).data = l := rfl

@[simp] theorem data_append (s t : String) : (s ++ t).data = s.data ++ t.data := by
  cases s
  cases t
  rfl

/-! ## C5: teardown ordering -/

/-- C5: when a file sink was opened, the completion callback appears in the
teardown trace strictly after the close event, which itself follows every
queued write (all queued writes appear, in order, before it); the callback
occurs at no other position; with no file sink the trace is the immediate
callback alone. -/
theorem c5_teardown_ordering (queued : List String) (failures : Nat) :
    ((done (some queued) failures).length = queued.length + 2) ∧
    ((done (some queued) failures).get? (queued.length + 1) =
      some (SinkEvent.callback failures)) ∧
    ((done (some queued) failures).get? queued.length = some SinkEvent.closed) ∧
    (∀ i, i < queued.length →
      (done (some queued) failures).get? i = (queued.get? i).map SinkEvent.wrote) ∧
    (∀ i, (done (some queued) failures).get? i = some (SinkEvent.callback failures) →
      i = queued.length + 1) ∧
    (done none failures = [SinkEvent.callback failures]) := by
  refine ⟨?_, ?_, ?_, ?_, ?_, rfl⟩
  · simp [done]
  · rw [done, List.get?_append_right (by simp)]
    simp
  · rw [done, List.get?_append_right (by simp)]
    simp
  · intro i hi
    rw [done, List.get?_append (by simpa using hi)]
    simp [List.get?_map]
  · intro i hi
    rw [done] at hi
    rcases Nat.lt_trichotomy i queued.length with h1 | h1 | h1
    · rw [List.get?_append (by simpa using h1)] at hi
      simp only [List.get?_map] at hi
      rcases h2 : queued.get? i with _ | c <;> rw [h2] at hi <;> simp at hi
    · subst h1
      rw [List.get?_append_right (by simp)] at hi
      simp at hi
    · rcases Nat.lt_or_ge i (queued.length + 2) with h2 | h2
      · omega
      · rw [List.get?_eq_none.2 (by simp; omega)] at hi
        exact absurd hi (by simp)

/-- C5 witness at a concrete queue of three chunks. -/
theorem c5_teardown_ordering_witness :
    (done (some ["a", "b", "c"]) 2).get? 3 = some SinkEvent.closed ∧
    (done (some ["a", "b", "c"]) 2).get? 1 = some (SinkEvent.wrote "b") := by
  obtain ⟨-, -, h3, h4, -, -⟩ := c5_teardown_ordering ["a", "b", "c"] 2
  exact ⟨h3, by simpa using h4 1 (by decide)⟩

/-! ## C6: unsupported-environment error -/

/-- C6: the constructor raises the unsupported error exactly when the
resolved output path is truthy while the runtime has no createWriteStream;
the error is that specific message, and on success a file stream is opened
exactly when the resolved path is truthy. -/
theorem c6_unsupported_error (env : Option String) (options : Option Options)
    (hasCWS : Bool) :
    ((∃ msg, xunitCtor env options hasCWS = Except.error msg) ↔
      (truthy (resolveOutputPath env options) = true ∧ hasCWS = false)) ∧
    (∀ msg, xunitCtor env options hasCWS = Except.error msg →
      msg = "file output not supported in browser") ∧
    (∀ res, xunitCtor env options hasCWS = Except.ok res →
      res.fileStream = truthy (resolveOutputPath env options)) := by
  rcases h : truthy (resolveOutputPath env options) with _ | _ <;>
    cases hasCWS <;> simp [xunitCtor, h]

/-- C6 witness: with a truthy configured path and no write-stream
capability the constructor fails with the unsupported message; with the
capability present it succeeds and opens the file stream. -/
theorem c6_unsupported_error_witness :
    (∃ msg, xunitCtor (some "report.xml") none false = Except.error msg) ∧
    (∀ msg, xunitCtor (some "report.xml") none false = Except.error msg →
      msg = "file output not supported in browser") ∧
    (∀ res, xunitCtor (some "report.xml") none true = Except.ok res →
      res.fileStream = true) := by
  refine ⟨?_, (c6_unsupported_error (some "report.xml") none false).2.1, ?_⟩
  · exact (c6_unsupported_error (some "report.xml") none false).1.2 (by decide)
  · intro res h
    have := (c6_unsupported_error (some "report.xml") none true).2.2 res h
    simpa using this

/-! ## C7: output-path resolution precedence -/

/-- C7 counterexample: the environment variable set to the empty string is
present but falsy, so the configured output wins, contradicting the claim
that the environment variable's value is the one used whenever both are
present. -/
theorem c7_counterexample :
    resolveOutputPath (some "") (some ⟨some ⟨some "out.xml", none⟩⟩) =
      some "out.xml" ∧
    (some "" : Option String) ≠ none ∧
    resolveOutputPath (some "") (some ⟨some ⟨some "out.xml", none⟩⟩) ≠
      some "" := by
  decide

/-- C7 (amended): the environment variable is consulted first and its
value is used whenever it is truthy (set and non-empty); the configured
output is used only when the environment variable is unset or empty, and
itself truthy; otherwise the (falsy) environment value stands. -/
theorem c7_amended_precedence (env : Option String) (options : Option Options) :
    (truthy env = true → resolveOutputPath env options = env) ∧
    (truthy env = false →
      resolveOutputPath env options =
        if truthy (configOutput options) then configOutput options else env) := by
  constructor
  · intro h
    rcases options with _ | o
    · rfl
    · rcases o with ⟨_ | ro⟩
      · rfl
      · simp [resolveOutputPath, h]
  · intro h
    rcases options with _ | o
    · simp [resolveOutputPath, configOutput, truthy]
    · rcases o with ⟨_ | ro⟩
      · simp [resolveOutputPath, configOutput, truthy]
      · simp [resolveOutputPath, configOutput, h]

/-- C7 witness: a truthy environment value wins over a configured output;
with the environment variable unset the configured output is used. -/
theorem c7_amended_precedence_witness :
    resolveOutputPath (some "env.xml") (some ⟨some ⟨some "out.xml", none⟩⟩) =
      some "env.xml" ∧
    resolveOutputPath none (some ⟨some ⟨some "out.xml", none⟩⟩) =
      some "out.xml" := by
  constructor
  · exact (c7_amended_precedence (some "env.xml") _).1 (by decide)
  · have := (c7_amended_precedence none (some ⟨some ⟨some "out.xml", none⟩⟩)).2 (by decide)
    simpa [configOutput] using this

/-! ## C9: suite-end handler -/

/-- C9: the suite-end handler always succeeds, decreases the indentation
counter by one, leaves the buffered records and the failure counter
untouched, and appends a blank console separator line exactly when the
decremented counter equals the top level (depth one, the level of the root
suite). -/
theorem c9_suite_end (st : RState) :
    ∃ st', step st Event.suiteEnd = Except.ok st' ∧
      st'.indents = st.indents - 1 ∧
      st'.tests = st.tests ∧
      st'.n = st.n ∧
      (st.indents - 1 = 1 → st'.console = st.console ++ [""]) ∧
      (st.indents - 1 ≠ 1 → st'.console = st.console) := by
  refine ⟨_, rfl, rfl, rfl, rfl, ?_, ?_⟩
  · intro h
    simp [h]
  · intro h
    simp [h]

/-- C9 witness: from depth 2 the handler returns to depth 1 and prints the
separator; from depth 4 it prints nothing. -/
theorem c9_suite_end_witness :
    (∃ st', step { tests := [], indents := 2, n := 0, console := [] }
        Event.suiteEnd = Except.ok st' ∧
      st'.indents = 1 ∧ st'.console = [""]) ∧
    (∃ st', step { tests := [], indents := 4, n := 0, console := [] }
        Event.suiteEnd = Except.ok st' ∧
      st'.indents = 3 ∧ st'.console = []) := by
  constructor
  · obtain ⟨st', h1, h2, -, -, h5, -⟩ :=
      c9_suite_end { tests := [], indents := 2, n := 0, console := [] }
    exact ⟨st', h1, by simpa using h2, by simpa using h5 (by decide)⟩
  · obtain ⟨st', h1, h2, -, -, -, h6⟩ :=
      c9_suite_end { tests := [], indents := 4, n := 0, console := [] }
    exact ⟨st', h1, by simpa using h2, by simpa using h6 (by decide)⟩

end XUnit

namespace XUnit

/-! ## State machine lemmas -/

@[simp] theorem except_ok_bind {α β : Type} (a : α) (f : α → Except String β) :
    (Except.ok a >>= f) = f a := rfl

@[simp] theorem except_error_bind {α β : Type} (msg : String) (f : α → Except String β) :
    ((Except.error msg : Except String α) >>= f) = Except.error msg := rfl

theorem indent_ok {k : Int} (h : 0 ≤ k) :
    indent k = Except.ok (String.join (List.replicate ((k - 1).toNat) "  ")) := by
  simp [indent, not_lt.2 h]

theorem indent_err {k : Int} (h : k < 0) :
    indent k = Except.error "Invalid array length" := by
  simp [indent, h]

theorem terminatingRecords_cons (e : Event) (rest : List Event) :
    terminatingRecords (e :: rest) =
      (terminatingRecord e).toList ++ terminatingRecords rest := by
  cases h : terminatingRecord e <;>
    simp [terminatingRecords, List.filterMap_cons, h]

/-- Effect of one successful handler step on the record buffer and the
indentation counter. -/
theorem step_ok_fields {st st' : RState} {e : Event} (h : step st e = Except.ok st') :
    st'.tests = st.tests ++ (terminatingRecord e).toList ∧
    st'.indents = st.indents + (if isSuiteBegin e then 1 else 0)
      - (if isSuiteEnd e then 1 else 0) := by
  cases e with
  | testPass t =>
    rcases hi : indent st.indents with msg | ind <;>
      simp only [step, hi, except_ok_bind, except_error_bind] at h
    · cases h
    · cases h
      simp [terminatingRecord, isSuiteBegin, isSuiteEnd]
  | testFail t =>
    rcases hi : indent st.indents with msg | ind <;>
      simp only [step, hi, except_ok_bind, except_error_bind] at h
    · cases h
    · cases h
      simp [terminatingRecord, isSuiteBegin, isSuiteEnd]
  | testPending t =>
    rcases hi : indent st.indents with msg | ind <;>
      simp only [step, hi, except_ok_bind, except_error_bind] at h
    · cases h
    · cases h
      simp [terminatingRecord, isSuiteBegin, isSuiteEnd]
  | suiteBegin title =>
    rcases hi : indent (st.indents + 1) with msg | ind <;>
      simp only [step, hi, except_ok_bind, except_error_bind] at h
    · cases h
    · cases h
      simp [terminatingRecord, isSuiteBegin, isSuiteEnd]
  | suiteEnd =>
    cases h
    simp [terminatingRecord, isSuiteBegin, isSuiteEnd]
  | runBegin =>
    cases h
    simp [terminatingRecord, isSuiteBegin, isSuiteEnd]

/-- A successful run accumulates exactly the terminating records, in
order, and its final indentation is the begin count minus the end count. -/
theorem runFrom_ok_fields (evts : List Event) (st0 st : RState)
    (h : runFrom st0 evts = Except.ok st) :
    st.tests = st0.tests ++ terminatingRecords evts ∧
    st.indents = st0.indents + (countBegins evts : Int) - (countEnds evts : Int) := by
  induction evts generalizing st0 with
  | nil =>
    cases h
    simp [terminatingRecords, countBegins, countEnds]
  | cons e rest ih =>
    rw [runFrom, List.foldlM_cons] at h
    rcases h1 : step st0 e with msg | st1 <;> rw [h1] at h
    · simp at h
    · simp only [except_ok_bind] at h
      obtain ⟨ht, hi⟩ := ih st1 h
      obtain ⟨ht1, hi1⟩ := step_ok_fields h1
      constructor
      · rw [ht, ht1, terminatingRecords_cons, List.append_assoc]
      · rw [hi, hi1]
        simp only [countBegins, countEnds, List.countP_cons]
        cases e <;> simp [isSuiteBegin, isSuiteEnd] <;> omega

/-- Any handler succeeds from a state with a non-negative indentation
counter. -/
theorem step_ok_of_nonneg (st : RState) (e : Event) (h : 0 ≤ st.indents) :
    ∃ st', step st e = Except.ok st' := by
  cases e with
  | testPass t =>
    rcases h2 : step st (Event.testPass t) with msg | st'
    · simp only [step, indent_ok h, except_ok_bind] at h2
      cases h2
    · exact ⟨st', rfl⟩
  | testFail t =>
    rcases h2 : step st (Event.testFail t) with msg | st'
    · simp only [step, indent_ok h, except_ok_bind] at h2
      cases h2
    · exact ⟨st', rfl⟩
  | testPending t =>
    rcases h2 : step st (Event.testPending t) with msg | st'
    · simp only [step, indent_ok h, except_ok_bind] at h2
      cases h2
    · exact ⟨st', rfl⟩
  | suiteBegin title =>
    rcases h2 : step st (Event.suiteBegin title) with msg | st'
    · simp only [step, indent_ok (show (0 : Int) ≤ st.indents + 1 by omega),
        except_ok_bind] at h2
      cases h2
    · exact ⟨st', rfl⟩
  | suiteEnd => exact ⟨_, rfl⟩
  | runBegin => exact ⟨_, rfl⟩

/-- A run succeeds whenever every prefix keeps the running suite balance
non-negative relative to the starting indentation. -/
theorem runFrom_ok_of_balanced (evts : List Event) (st0 : RState)
    (h0 : 0 ≤ st0.indents)
    (hbal : ∀ k, k ≤ evts.length →
      0 ≤ st0.indents + (countBegins (evts.take k) : Int) - (countEnds (evts.take k) : Int)) :
    ∃ st, runFrom st0 evts = Except.ok st := by
  induction evts generalizing st0 with
  | nil => exact ⟨st0, rfl⟩
  | cons e rest ih =>
    obtain ⟨st1, h1⟩ := step_ok_of_nonneg st0 e h0
    obtain ⟨-, hind⟩ := step_ok_fields h1
    have hone := hbal 1 (by simp)
    simp only [List.take_succ_cons, List.take_zero] at hone
    have h0' : 0 ≤ st1.indents := by
      rw [hind]
      cases e <;>
        simp [countBegins, countEnds, List.countP_cons, isSuiteBegin, isSuiteEnd]
          at hone ⊢ <;>
        omega
    have hbal' : ∀ k, k ≤ rest.length →
        0 ≤ st1.indents + (countBegins (rest.take k) : Int) - (countEnds (rest.take k) : Int) := by
      intro k hk
      have := hbal (k + 1) (by simp; omega)
      simp only [List.take_succ_cons] at this
      rw [hind]
      cases e <;>
        simp [countBegins, countEnds, List.countP_cons, isSuiteBegin, isSuiteEnd]
          at this ⊢ <;>
        omega
    obtain ⟨st, hst⟩ := ih st1 h0' hbal'
    refine ⟨st, ?_⟩
    rw [runFrom, List.foldlM_cons, h1]
    exact hst

/-! ## C10: indentation safety -/

/-- C10: for every event sequence whose prefixes never let suite-end
events outnumber suite-begin events, every handler succeeds (the whole run
is exception free) and the indentation counter is non-negative after every
prefix; conversely, after a successful run of a sequence in which
suite-end events outnumber suite-begin events, the next test handler's
indent computation is applied to a negative array length and raises the
range error. -/
theorem c10_indent_safety :
    (∀ evts : List Event,
      (∀ k, k ≤ evts.length → countEnds (evts.take k) ≤ countBegins (evts.take k)) →
      (∃ st, run evts = Except.ok st) ∧
      (∀ k st', run (evts.take k) = Except.ok st' → 0 ≤ st'.indents)) ∧
    (∀ (evts : List Event) (st : RState) (t : TestRec),
      run evts = Except.ok st → countBegins evts < countEnds evts →
      step st (Event.testPass t) = Except.error "Invalid array length") := by
  constructor
  · intro evts hbal
    constructor
    · refine runFrom_ok_of_balanced evts initState (by simp [initState]) ?_
      intro k hk
      have := hbal k hk
      simp only [initState]
      omega
    · intro k st' h
      obtain ⟨-, hind⟩ := runFrom_ok_fields (evts.take k) initState st' h
      rw [hind]
      simp only [initState]
      rcases le_or_lt k evts.length with hk | hk
      · have := hbal k hk
        omega
      · rw [List.take_of_length_le (by omega)]
        have := hbal evts.length (by omega)
        rw [List.take_length] at this
        omega
  · intro evts st t hrun hcount
    obtain ⟨-, hind⟩ := runFrom_ok_fields evts initState st hrun
    have hneg : st.indents < 0 := by
      rw [hind]
      simp only [initState]
      omega
    simp only [step, indent_err hneg, except_error_bind]

/-- C10 witness: the balanced sequence of one suite-begin and one
suite-end runs without error; running a lone suite-end succeeds but leaves
the counter at minus one, and the next test-pass handler raises the range
error. -/
theorem c10_indent_safety_witness :
    (∃ st, run [Event.suiteBegin "a", Event.suiteEnd] = Except.ok st) ∧
    step { tests := [], indents := -1, n := 0, console := [] }
      (Event.testPass ⟨"t", "A", some 5, Outcome.passed, "fast", "", "", ""⟩) =
      Except.error "Invalid array length" := by
  constructor
  · exact (c10_indent_safety.1 [Event.suiteBegin "a", Event.suiteEnd] (by decide)).1
  · refine c10_indent_safety.2 [Event.suiteEnd]
      { tests := [], indents := -1, n := 0, console := [] }
      ⟨"t", "A", some 5, Outcome.passed, "fast", "", "", ""⟩ ?_ (by decide)
    rfl

/-! ## C1: root element summary attributes -/

/-- Fail and pass counts together never exceed the terminating count. -/
theorem countP_fail_pass_le (evts : List Event) :
    evts.countP isFail + evts.countP isPass ≤ evts.countP isTerminating := by
  induction evts with
  | nil => simp
  | cons e rest ih =>
    cases e <;>
      simp [List.countP_cons, isFail, isPass, isTerminating, terminatingRecord] <;>
      omega

/-- The summary fold in closed form. -/
theorem statsOf_eq (evts : List Event) (dur : Option Nat) :
    statsOf evts dur =
      { tests := evts.countP isTerminating,
        passes := evts.countP isPass,
        failures := evts.countP isFail,
        duration := dur } := by
  rw [statsOf]
  suffices h : ∀ s0 : Stats, evts.foldl statsStep s0 =
      { tests := s0.tests + evts.countP isTerminating,
        passes := s0.passes + evts.countP isPass,
        failures := s0.failures + evts.countP isFail,
        duration := s0.duration } by
    simp [h]
  induction evts with
  | nil => intro s0; simp
  | cons e rest ih =>
    intro s0
    rw [List.foldl_cons, ih]
    cases e <;>
      simp [statsStep, List.countP_cons, isTerminating, isPass, isFail,
        terminatingRecord] <;>
      omega

/-- C1: for every event sequence, the root testsuite attributes report
tests equal to the number of terminating events, errors equal to the
number of fail events, skipped equal to tests minus errors minus passes
(an exact difference, since fails plus passes never exceed the total), and
failures equal to the literal zero. -/
theorem c1_root_summary (evts : List Event) (dur : Option Nat) (sn ts : String) :
    (statsOf evts dur).tests = evts.countP isTerminating ∧
    (statsOf evts dur).failures = evts.countP isFail ∧
    (statsOf evts dur).passes = evts.countP isPass ∧
    evts.countP isFail + evts.countP isPass ≤ evts.countP isTerminating ∧
    (rootAttrs sn ts (statsOf evts dur)).lookup "tests" =
      some (natToStr (evts.countP isTerminating)) ∧
    (rootAttrs sn ts (statsOf evts dur)).lookup "failures" = some (natToStr 0) ∧
    (rootAttrs sn ts (statsOf evts dur)).lookup "errors" =
      some (natToStr (evts.countP isFail)) ∧
    (rootAttrs sn ts (statsOf evts dur)).lookup "skipped" =
      some (natToStr
        (evts.countP isTerminating - evts.countP isFail - evts.countP isPass)) := by
  rw [statsOf_eq]
  refine ⟨rfl, rfl, rfl, countP_fail_pass_le evts, ?_, ?_, ?_, ?_⟩ <;>
    simp [rootAttrs, List.lookup]

/-! ## C4: children in arrival order -/

/-- C4: after a successful run, the record buffer holds exactly the
terminating records in arrival order, and the run-end output is the root
open tag, one testcase line per buffered record in that same order, and
the closing tag; every record contributes exactly one line. -/
theorem c4_arrival_order (evts : List Event) (st : RState) (sn ts : String)
    (s : Stats) (h : run evts = Except.ok st) :
    st.tests = terminatingRecords evts ∧
    runEndLines sn ts s st.tests =
      rootOpenTag sn ts s ::
        ((terminatingRecords evts).map testcaseTag ++ ["</testsuite>"]) ∧
    (runEndLines sn ts s st.tests).length = 2 + (terminatingRecords evts).length := by
  obtain ⟨ht, -⟩ := runFrom_ok_fields evts initState st h
  have hts : st.tests = terminatingRecords evts := by
    simpa [initState] using ht
  refine ⟨hts, ?_, ?_⟩
  · rw [runEndLines, hts, List.cons_append]
  · rw [runEndLines, hts]
    simp
    omega

/-- C4 witness: a pass followed by a pending test yields exactly those two
testcase lines, in arrival order, between the root tags. -/
theorem c4_arrival_order_witness :
    ∃ st, run [Event.testPass ⟨"t1", "A", some 5, Outcome.passed, "fast", "", "", ""⟩,
          Event.testPending ⟨"t2", "A", none, Outcome.pending, "", "", "", ""⟩] =
        Except.ok st ∧
      st.tests = [⟨"t1", "A", some 5, Outcome.passed, "fast", "", "", ""⟩,
        ⟨"t2", "A", none, Outcome.pending, "", "", "", ""⟩] ∧
      runEndLines "S" "TS" ⟨2, 1, 0, none⟩ st.tests =
        [rootOpenTag "S" "TS" ⟨2, 1, 0, none⟩,
          testcaseTag ⟨"t1", "A", some 5, Outcome.passed, "fast", "", "", ""⟩,
          testcaseTag ⟨"t2", "A", none, Outcome.pending, "", "", "", ""⟩,
          "</testsuite>"] := by
  have hrun : run [Event.testPass ⟨"t1", "A", some 5, Outcome.passed, "fast", "", "", ""⟩,
      Event.testPending ⟨"t2", "A", none, Outcome.pending, "", "", "", ""⟩] =
      Except.ok ⟨[⟨"t1", "A", some 5, Outcome.passed, "fast", "", "", ""⟩,
        ⟨"t2", "A", none, Outcome.pending, "", "", "", ""⟩], 0, 0,
        ["  ✓ t1", "  - t2"]⟩ := by rfl
  obtain ⟨h1, h2, -⟩ := c4_arrival_order _ _ "S" "TS" ⟨2, 1, 0, none⟩ hrun
  exact ⟨_, hrun, h1.trans rfl, h2.trans (by rfl)⟩

/-! ## Digit rendering lemmas (towards C8, C2, C3) -/

theorem digitChar_isDigit {d : Nat} (h : d < 10) :
    (Nat.digitChar d).isDigit = true := by
  interval_cases d <;> decide

theorem digitChar_toNat {d : Nat} (h : d < 10) :
    (Nat.digitChar d).toNat - '0'.toNat = d := by
  interval_cases d <;> decide

theorem digitChar_ne_zero {d : Nat} (h : d < 10) (h0 : d ≠ 0) :
    Nat.digitChar d ≠ '0' := by
  interval_cases d <;> simp_all <;> decide

theorem natToChars_digits (n : Nat) : ∀ c ∈ natToChars n, c.isDigit = true := by
  induction n using Nat.strong_induction_on with
  | _ n ih =>
    rw [natToChars]
    split
    · intro c hc
      simp only [List.mem_singleton] at hc
      subst hc
      exact digitChar_isDigit (by omega)
    · intro c hc
      rw [List.mem_append] at hc
      rcases hc with hc | hc
      · exact ih (n / 10) (Nat.div_lt_self (by omega) (by omega)) c hc
      · simp only [List.mem_singleton] at hc
        subst hc
        exact digitChar_isDigit (Nat.mod_lt _ (by omega))

theorem natToChars_ne_nil (n : Nat) : natToChars n ≠ [] := by
  rw [natToChars]
  split
  · simp
  · simp

theorem foldl_digits_shift (l : List Char) :
    ∀ a : Nat, l.foldl (fun a c => a * 10 + (c.toNat - '0'.toNat)) a =
      a * 10 ^ l.length + digitsVal l := by
  induction l with
  | nil => intro a; simp [digitsVal]
  | cons c rest ih =>
    intro a
    have h2 : digitsVal (c :: rest) =
        rest.foldl (fun a c => a * 10 + (c.toNat - '0'.toNat)) (c.toNat - '0'.toNat) := by
      rw [digitsVal, List.foldl_cons]
      norm_num
    rw [List.foldl_cons, ih, h2, ih]
    simp only [List.length_cons]
    ring

theorem digitsVal_natToChars (n : Nat) : digitsVal (natToChars n) = n := by
  induction n using Nat.strong_induction_on with
  | _ n ih =>
    rw [natToChars]
    split
    · rw [digitsVal, List.foldl_cons]
      simpa using digitChar_toNat (by omega)
    · have h1 : digitsVal (natToChars (n / 10)) = n / 10 :=
        ih (n / 10) (Nat.div_lt_self (by omega) (by omega))
      rw [digitsVal, List.foldl_append]
      rw [show (natToChars (n / 10)).foldl
          (fun a c => a * 10 + (c.toNat - '0'.toNat)) 0 =
          digitsVal (natToChars (n / 10)) from rfl, h1]
      simp only [List.foldl_cons, List.foldl_nil]
      rw [digitChar_toNat (Nat.mod_lt _ (by omega))]
      omega

theorem takeWhile_all {p : Char → Bool} (l : List Char)
    (h : ∀ c ∈ l, p c = true) : l.takeWhile p = l := by
  induction l with
  | nil => rfl
  | cons c r ih =>
    rw [List.takeWhile_cons, h c (by simp)]
    simp [ih fun x hx => h x (by simp [hx])]

theorem takeWhile_append_of {p : Char → Bool} (l1 l2 : List Char)
    (h1 : ∀ c ∈ l1, p c = true)
    (h2 : ∀ c, l2.head? = some c → p c = false) :
    (l1 ++ l2).takeWhile p = l1 := by
  induction l1 with
  | nil =>
    cases l2 with
    | nil => rfl
    | cons c r =>
      simp [List.takeWhile_cons, h2 c rfl]
  | cons c r ih =>
    simp only [List.cons_append, List.takeWhile_cons, h1 c (by simp)]
    simp [ih fun x hx => h1 x (by simp [hx])]

theorem dropWhile_append_of {p : Char → Bool} (l1 l2 : List Char)
    (h1 : ∀ c ∈ l1, p c = true)
    (h2 : ∀ c, l2.head? = some c → p c = false) :
    (l1 ++ l2).dropWhile p = l2 := by
  induction l1 with
  | nil =>
    cases l2 with
    | nil => rfl
    | cons c r =>
      simp [List.dropWhile_cons, h2 c rfl]
  | cons c r ih =>
    simp only [List.cons_append, List.dropWhile_cons, h1 c (by simp)]
    simpa using ih fun x hx => h1 x (by simp [hx])

theorem digitsVal_singleton (c : Char) :
    digitsVal [c] = c.toNat - '0'.toNat := by
  simp [digitsVal]

theorem digitsVal_pair (a b : Char) :
    digitsVal [a, b] = (a.toNat - '0'.toNat) * 10 + (b.toNat - '0'.toNat) := by
  simp [digitsVal]

theorem digitsVal_triple (a b c : Char) :
    digitsVal [a, b, c] =
      ((a.toNat - '0'.toNat) * 10 + (b.toNat - '0'.toNat)) * 10 +
        (c.toNat - '0'.toNat) := by
  simp [digitsVal]

/-- The stripped fractional digit block of a nonzero remainder: nonempty,
all digits, and worth exactly fr / 1000. -/
theorem stripZeros_spec {fr : Nat} (hlt : fr < 1000) (h0 : fr ≠ 0) :
    stripTrailingZeros (pad3 fr) ≠ [] ∧
    (∀ c ∈ stripTrailingZeros (pad3 fr), c.isDigit = true) ∧
    (digitsVal (stripTrailingZeros (pad3 fr)) : ℚ) /
        (10 : ℚ) ^ (stripTrailingZeros (pad3 fr)).length = (fr : ℚ) / 1000 := by
  have hd1 : fr / 100 < 10 := by omega
  have hd2 : fr / 10 % 10 < 10 := Nat.mod_lt _ (by omega)
  have hd3 : fr % 10 < 10 := Nat.mod_lt _ (by omega)
  by_cases h3 : fr % 10 = 0
  · by_cases h2 : fr / 10 % 10 = 0
    · have hc3 : Nat.digitChar (fr % 10) = '0' := by rw [h3]; rfl
      have hc2 : Nat.digitChar (fr / 10 % 10) = '0' := by rw [h2]; rfl
      have hc1 : Nat.digitChar (fr / 100) ≠ '0' :=
        digitChar_ne_zero hd1 (by omega)
      have hstrip : stripTrailingZeros (pad3 fr) = [Nat.digitChar (fr / 100)] := by
        rw [stripTrailingZeros, pad3, hc3, hc2]
        simp [List.dropWhile_cons, hc1]
      rw [hstrip]
      refine ⟨by simp, ?_, ?_⟩
      · intro c hc
        simp only [List.mem_singleton] at hc
        subst hc
        exact digitChar_isDigit hd1
      · rw [digitsVal_singleton, digitChar_toNat hd1]
        simp only [List.length_cons, List.length_nil]
        have hfr : (fr : ℚ) = 100 * ((fr / 100 : ℕ) : ℚ) := by
          exact_mod_cast congrArg (Nat.cast (R := ℚ)) (by omega : fr = 100 * (fr / 100))
        rw [hfr]
        push_cast
        ring
    · have hc3 : Nat.digitChar (fr % 10) = '0' := by rw [h3]; rfl
      have hc2 : Nat.digitChar (fr / 10 % 10) ≠ '0' :=
        digitChar_ne_zero hd2 h2
      have hstrip : stripTrailingZeros (pad3 fr) =
          [Nat.digitChar (fr / 100), Nat.digitChar (fr / 10 % 10)] := by
        rw [stripTrailingZeros, pad3, hc3]
        simp [List.dropWhile_cons, hc2]
      rw [hstrip]
      refine ⟨by simp, ?_, ?_⟩
      · intro c hc
        simp only [List.mem_cons, List.mem_singleton, List.not_mem_nil, or_false] at hc
        rcases hc with hc | hc <;> subst hc
        · exact digitChar_isDigit hd1
        · exact digitChar_isDigit hd2
      · rw [digitsVal_pair, digitChar_toNat hd1, digitChar_toNat hd2]
        simp only [List.length_cons, List.length_nil]
        have hfr : (fr : ℚ) = 10 * ((fr / 100 * 10 + fr / 10 % 10 : ℕ) : ℚ) := by
          exact_mod_cast congrArg (Nat.cast (R := ℚ))
            (by omega : fr = 10 * (fr / 100 * 10 + fr / 10 % 10))
        rw [hfr]
        push_cast
        ring
  · have hc3 : Nat.digitChar (fr % 10) ≠ '0' := digitChar_ne_zero hd3 h3
    have hstrip : stripTrailingZeros (pad3 fr) =
        [Nat.digitChar (fr / 100), Nat.digitChar (fr / 10 % 10),
          Nat.digitChar (fr % 10)] := by
      rw [stripTrailingZeros, pad3]
      simp [List.dropWhile_cons, hc3]
    rw [hstrip]
    refine ⟨by simp, ?_, ?_⟩
    · intro c hc
      simp only [List.mem_cons, List.mem_singleton, List.not_mem_nil, or_false] at hc
      rcases hc with hc | hc | hc <;> subst hc
      · exact digitChar_isDigit hd1
      · exact digitChar_isDigit hd2
      · exact digitChar_isDigit hd3
    · rw [digitsVal_triple, digitChar_toNat hd1, digitChar_toNat hd2,
        digitChar_toNat hd3]
      simp only [List.length_cons, List.length_nil]
      have hfr : (fr : ℚ) =
          ((fr / 100 * 10 + fr / 10 % 10) * 10 + fr % 10 : ℕ) := by
        exact_mod_cast congrArg (Nat.cast (R := ℚ))
          (by omega : fr = (fr / 100 * 10 + fr / 10 % 10) * 10 + fr % 10)
      rw [hfr]
      push_cast
      ring

/-- Reading back the decimal rendering of a whole natural number. -/
theorem decVal_natToStr (m : Nat) : decVal (natToStr m) = some (m : ℚ) := by
  have hne : ¬((natToChars m).isEmpty = true) := by
    simp [List.isEmpty_iff, natToChars_ne_nil m]
  simp only [decVal, natToStr, data_mk]
  rw [takeWhile_all _ (natToChars_digits m), List.drop_length,
    if_neg hne, if_pos rfl, digitsVal_natToChars]

/-! ## C8: duration coercion -/

/-- C8: the time attribute string written for a record reads back as
exactly the duration divided by one thousand, and as zero when the
duration is missing or malformed; the same holds for the root element's
total time; the time attribute is present on every testcase and on the
root, whatever the duration field holds. -/
theorem c8_duration_coercion :
    (∀ d : Option Nat, decVal (jsDiv1000Str d) = some (timeVal d)) ∧
    timeVal none = 0 ∧
    (∀ n : Nat, timeVal (some n) = (n : ℚ) / 1000) ∧
    (∀ t : TestRec, (caseAttrs t).lookup "time" = some (jsDiv1000Str t.duration)) ∧
    (∀ (sn ts : String) (s : Stats),
      (rootAttrs sn ts s).lookup "time" = some (jsDiv1000Str s.duration)) := by
  refine ⟨?_, rfl, fun n => rfl, ?_, ?_⟩
  · intro d
    rcases d with _ | n
    · have h0 : natToStr 0 = "0" := by
        rw [natToStr, natToChars]
        rfl
      rw [show jsDiv1000Str none = "0" from rfl, ← h0, decVal_natToStr]
      simp [timeVal]
    · rw [jsDiv1000Str]
      by_cases hmod : n % 1000 = 0
      · rw [if_pos hmod, decVal_natToStr]
        have hcast : (n : ℚ) = 1000 * ((n / 1000 : ℕ) : ℚ) := by
          exact_mod_cast congrArg (Nat.cast (R := ℚ))
            (by omega : n = 1000 * (n / 1000))
        rw [timeVal, hcast]
        norm_num
      · rw [if_neg hmod]
        obtain ⟨hne, hdig, hval⟩ :=
          stripZeros_spec (show n % 1000 < 1000 by omega) hmod
        have hdata : (natToStr (n / 1000) ++ "." ++
            String.mk (stripTrailingZeros (pad3 (n % 1000)))).data =
            natToChars (n / 1000) ++
              ('.' :: stripTrailingZeros (pad3 (n % 1000))) := by
          simp [natToStr, List.append_assoc]
        have hhead : ∀ c : Char,
            ('.' :: stripTrailingZeros (pad3 (n % 1000))).head? = some c →
            c.isDigit = false := by
          intro c hc
          simp only [List.head?_cons, Option.some.injEq] at hc
          subst hc
          decide
        have hipne : ¬((natToChars (n / 1000)).isEmpty = true) := by
          simp [List.isEmpty_iff, natToChars_ne_nil]
        simp only [decVal, hdata]
        rw [takeWhile_append_of _ _ (natToChars_digits _) hhead,
          List.drop_left, if_neg hipne, if_neg (by simp),
          if_pos (show ('.' :: stripTrailingZeros (pad3 (n % 1000))).head? =
            some '.' from rfl)]
        rw [List.tail_cons]
        rw [if_pos ⟨hne, List.all_eq_true.2 hdig⟩]
        rw [digitsVal_natToChars, hval]
        have hcast : (n : ℚ) = 1000 * ((n / 1000 : ℕ) : ℚ) + ((n % 1000 : ℕ) : ℚ) := by
          exact_mod_cast congrArg (Nat.cast (R := ℚ))
            (by omega : n = 1000 * (n / 1000) + n % 1000)
        rw [timeVal, hcast]
        ring_nf
  · intro t
    simp [caseAttrs, List.lookup]
  · intro sn ts s
    simp [rootAttrs, List.lookup]

/-! ## Escaping lemmas -/

@[simp] theorem mk_data (s : String) : String.mk s.data = s := by
  cases s
  rfl

theorem mem_escChar {c d : Char} (h : d ∈ escChar c) :
    d ≠ '<' ∧ d ≠ '>' ∧ d ≠ '"' := by
  rw [escChar] at h
  split at h
  · simp only [List.mem_cons, List.not_mem_nil, or_false] at h
    rcases h with rfl | rfl | rfl | rfl | rfl <;> decide
  · split at h
    · simp only [List.mem_cons, List.not_mem_nil, or_false] at h
      rcases h with rfl | rfl | rfl | rfl <;> decide
    · split at h
      · simp only [List.mem_cons, List.not_mem_nil, or_false] at h
        rcases h with rfl | rfl | rfl | rfl <;> decide
      · split at h
        · simp only [List.mem_cons, List.not_mem_nil, or_false] at h
          rcases h with rfl | rfl | rfl | rfl | rfl | rfl <;> decide
        · simp only [List.mem_singleton] at h
          subst h
          rename_i h1 h2 h3 h4
          exact ⟨h2, h3, h4⟩

theorem mem_escList {d : Char} {l : List Char} (h : d ∈ escList l) :
    d ≠ '<' ∧ d ≠ '>' ∧ d ≠ '"' := by
  induction l with
  | nil => simp [escList] at h
  | cons c rest ih =>
    rw [escList, List.mem_append] at h
    rcases h with h | h
    · exact mem_escChar h
    · exact ih h

theorem escChar_of_plain {c : Char} (h1 : c ≠ '&') (h2 : c ≠ '<')
    (h3 : c ≠ '>') (h4 : c ≠ '"') : escChar c = [c] := by
  rw [escChar, if_neg h1, if_neg h2, if_neg h3, if_neg h4]

theorem escList_of_plain {l : List Char}
    (h : ∀ c ∈ l, c ≠ '&' ∧ c ≠ '<' ∧ c ≠ '>' ∧ c ≠ '"') : escList l = l := by
  induction l with
  | nil => rfl
  | cons c rest ih =>
    obtain ⟨h1, h2, h3, h4⟩ := h c (by simp)
    rw [escList, escChar_of_plain h1 h2 h3 h4]
    simp only [List.singleton_append, List.cons.injEq, true_and]
    exact ih fun x hx => h x (by simp [hx])

/-- Entity decoding undoes escaping, in front of any remainder. -/
theorem unescList_escList (l r : List Char) :
    unescList (escList l ++ r) = l ++ unescList r := by
  induction l with
  | nil => simp [escList]
  | cons c rest ih =>
    rw [escList, escChar]
    by_cases h1 : c = '&'
    · subst h1
      rw [if_pos rfl]
      simp only [List.cons_append, List.append_assoc]
      rw [unescList]
      simp [ih]
    · rw [if_neg h1]
      by_cases h2 : c = '<'
      · subst h2
        rw [if_pos rfl]
        simp only [List.cons_append, List.append_assoc]
        rw [unescList]
        simp [ih]
      · rw [if_neg h2]
        by_cases h3 : c = '>'
        · subst h3
          rw [if_pos rfl]
          simp only [List.cons_append, List.append_assoc]
          rw [unescList]
          simp [ih]
        · rw [if_neg h3]
          by_cases h4 : c = '"'
          · subst h4
            rw [if_pos rfl]
            simp only [List.cons_append, List.append_assoc]
            rw [unescList]
            simp [ih]
          · rw [if_neg h4]
            simp only [List.singleton_append, List.cons_append]
            rw [unescList]
            simp only [List.nil_append]
            rw [if_neg (by simp [h1]), if_neg (by simp [h1]), if_neg (by simp [h1]),
              if_neg (by simp [h1])]
            simp [ih]

/-- Entity decoding over a non-ampersand head. -/
theorem unescList_cons_plain {c : Char} (h : c ≠ '&') (l : List Char) :
    unescList (c :: l) = c :: unescList l := by
  rw [unescList]
  rw [if_neg (by simp [h]), if_neg (by simp [h]), if_neg (by simp [h]),
    if_neg (by simp [h])]

/-- Round trip: decoding an escaped string gives back the original. -/
theorem unescape_escape (s : String) : unescape (escape s) = s := by
  rw [unescape, escape, data_mk]
  rw [show escList s.data = escList s.data ++ [] by simp, unescList_escList]
  simp [unescList]

theorem ampOk_cons_plain {c : Char} (h : c ≠ '&') (l : List Char) :
    ampOk (c :: l) = ampOk l := by
  rw [ampOk, if_neg h]

theorem ampOk_escList (l r : List Char) :
    ampOk (escList l ++ r) = ampOk r := by
  induction l with
  | nil => simp [escList]
  | cons c rest ih =>
    rw [escList, escChar]
    by_cases h1 : c = '&'
    · subst h1
      rw [if_pos rfl]
      simp only [List.cons_append, List.append_assoc]
      rw [ampOk, if_pos rfl]
      simp [ih]
    · rw [if_neg h1]
      by_cases h2 : c = '<'
      · subst h2
        rw [if_pos rfl]
        simp only [List.cons_append, List.append_assoc]
        rw [ampOk, if_pos rfl]
        simp [ih]
      · rw [if_neg h2]
        by_cases h3 : c = '>'
        · subst h3
          rw [if_pos rfl]
          simp only [List.cons_append, List.append_assoc]
          rw [ampOk, if_pos rfl]
          simp [ih]
        · rw [if_neg h3]
          by_cases h4 : c = '"'
          · subst h4
            rw [if_pos rfl]
            simp only [List.cons_append, List.append_assoc]
            rw [ampOk, if_pos rfl]
            simp [ih]
          · rw [if_neg h4]
            simp only [List.singleton_append, List.cons_append]
            rw [ampOk_cons_plain h1]
            exact ih

theorem ampOk_escList_nil (l : List Char) : ampOk (escList l) = true := by
  have h := ampOk_escList l []
  rw [List.append_nil] at h
  rw [h, ampOk]

/-! ## Parser helper lemmas -/

theorem takeName_append {nm r : List Char} (hnm : nm ≠ [])
    (h1 : ∀ c ∈ nm, isNameChar c = true)
    (h2 : ∀ c, r.head? = some c → isNameChar c = false) :
    takeName (nm ++ r) = some (nm, r) := by
  rw [takeName]
  simp only [takeWhile_append_of _ _ h1 h2]
  rw [if_neg hnm, List.drop_left]

/-- The character stream of a non-empty attribute block, one head pair
made explicit. -/
theorem attrsStr_cons (p : String × String) (rest : List (String × String)) :
    (attrsStr (p :: rest)).data =
      ' ' :: (p.1.data ++ '=' :: '"' :: (escList p.2.data ++
        '"' :: (attrsStr rest).data)) := by
  cases rest with
  | nil =>
    simp [attrsStr, renderAttrs, escape, data_append]
  | cons q qs =>
    simp [attrsStr, renderAttrs, escape, data_append]

theorem dropWhile_space_of_name (k X : List Char) (hne : k ≠ [])
    (hall : ∀ c ∈ k, isNameChar c = true) :
    List.dropWhile (fun c => decide (c = ' ')) (' ' :: (k ++ X)) = k ++ X := by
  rcases k with _ | ⟨c0, k'⟩
  · exact absurd rfl hne
  · have hc0 : isNameChar c0 = true := hall c0 (by simp)
    rw [List.dropWhile_cons, if_pos (by simp), List.cons_append,
      List.dropWhile_cons, if_neg ?_]
    · simp only [decide_eq_true_eq]
      intro hcc
      rw [hcc] at hc0
      exact absurd hc0 (by decide)

theorem head?_append_name {k X : List Char} (hne : k ≠ [])
    (hall : ∀ c ∈ k, isNameChar c = true) :
    ∀ c, (k ++ X).head? = some c → isNameChar c = true := by
  rcases k with _ | ⟨c0, k'⟩
  · exact absurd rfl hne
  · intro c hc
    simp only [List.cons_append, List.head?_cons, Option.some.injEq] at hc
    subst hc
    exact hall c0 (by simp)

theorem parseAttrs_render (attrs : List (String × String)) (tail : List Char)
    (fuel : Nat) (hfuel : attrs.length < fuel)
    (hkeys : ∀ p ∈ attrs, attrKeyOk p.1 = true)
    (htail : tail.head? = some '>' ∨ tail.head? = some '/') :
    parseAttrs fuel ((attrsStr attrs).data ++ tail) =
      some (escapedAttrs attrs, tail) := by
  induction attrs generalizing fuel with
  | nil =>
    obtain ⟨f, rfl⟩ : ∃ f, fuel = f + 1 := ⟨fuel - 1, by omega⟩
    have h0 : (attrsStr []).data = [] := rfl
    rw [h0, List.nil_append, parseAttrs]
    have hdrop : tail.dropWhile (fun c => decide (c = ' ')) = tail := by
      rcases htail with h | h <;>
        · rcases tail with _ | ⟨c, t⟩
          · rfl
          · simp only [List.head?_cons, Option.some.injEq] at h
            subst h
            rw [List.dropWhile_cons]
            simp
    simp only [hdrop]
    rw [if_pos htail]
    rfl
  | cons p rest ih =>
    obtain ⟨f, rfl⟩ : ∃ f, fuel = f + 1 := ⟨fuel - 1, by omega⟩
    have hkey := hkeys p (by simp)
    rw [attrKeyOk, Bool.and_eq_true] at hkey
    have hne : p.1.data ≠ [] := by
      simpa [List.isEmpty_iff] using hkey.1
    have hall : ∀ c ∈ p.1.data, isNameChar c = true := by
      have h2 := hkey.2
      rw [List.all_eq_true] at h2
      exact h2
    rw [attrsStr_cons]
    simp only [List.cons_append, List.append_assoc]
    simp only [parseAttrs]
    rw [dropWhile_space_of_name _ _ hne hall]
    rw [if_neg ?hcond]
    case hcond =>
      rintro (h | h) <;> exact absurd (head?_append_name hne hall _ h) (by decide)
    set X : List Char := (attrsStr rest).data ++ tail with hX
    set V : List Char := escList p.2.data with hV
    have e1 : takeName (p.1.data ++ '=' :: '"' :: (V ++ '"' :: X)) =
        some (p.1.data, '=' :: '"' :: (V ++ '"' :: X)) :=
      takeName_append hne hall (fun c hc => by
        simp only [List.head?_cons, Option.some.injEq] at hc
        subst hc
        decide)
    have e2 : List.takeWhile (fun c => decide (c ≠ '"')) (V ++ '"' :: X) = V :=
      takeWhile_append_of _ _
        (fun c hc => by
          rw [hV] at hc
          simp only [decide_eq_true_eq]
          exact fun hq => absurd hq (mem_escList hc).2.2)
        (fun c hc => by
          simp only [List.head?_cons, Option.some.injEq] at hc
          subst hc
          decide)
    have e3 : parseAttrs f ((attrsStr rest).data ++ tail) =
        some (escapedAttrs rest, tail) :=
      ih f (by simp at hfuel ⊢; omega) (fun q hq => hkeys q (by simp [hq]))
    have hampV : ampOk V = true := by
      rw [hV]
      exact ampOk_escList_nil p.2.data
    split
    next heq =>
      rw [e1] at heq
      simp at heq
    next nm r1 heq =>
      rw [e1] at heq
      simp only [Option.some.injEq, Prod.mk.injEq] at heq
      obtain ⟨h1, h2⟩ := heq
      subst h1
      subst h2
      rw [if_pos (show List.take 2 ('=' :: '"' :: (V ++ '"' :: X)) = ['=', '"']
        from rfl)]
      rw [show List.drop 2 ('=' :: '"' :: (V ++ '"' :: X)) = V ++ '"' :: X from rfl]
      rw [e2, if_pos hampV, List.drop_left]
      rw [if_pos (show ('"' :: X).head? = some '"' from rfl), List.tail_cons]
      rw [hX, e3]
      simp [escapedAttrs, escape, hV]

theorem attrsStr_length_ge (attrs : List (String × String)) :
    attrs.length ≤ (attrsStr attrs).data.length := by
  induction attrs with
  | nil => simp
  | cons p rest ih =>
    rw [attrsStr_cons]
    simp only [List.length_cons, List.length_append]
    omega

theorem head?_attrsStr_append (attrs : List (String × String)) (r : List Char)
    (c : Char) (h : ((attrsStr attrs).data ++ r).head? = some c) :
    c = ' ' ∨ r.head? = some c := by
  cases attrs with
  | nil =>
    right
    have h0 : (attrsStr []).data = [] := rfl
    rw [h0, List.nil_append] at h
    exact h
  | cons p rest =>
    left
    rw [attrsStr_cons] at h
    simp only [List.cons_append, List.head?_cons, Option.some.injEq] at h
    exact h.symm

theorem attrKeyOk_data {nm : String} (h : attrKeyOk nm = true) :
    nm.data ≠ [] ∧ ∀ c ∈ nm.data, isNameChar c = true := by
  rw [attrKeyOk, Bool.and_eq_true] at h
  refine ⟨by simpa [List.isEmpty_iff] using h.1, ?_⟩
  have h2 := h.2
  rw [List.all_eq_true] at h2
  exact h2

/-- Parse of a rendered self-closing tag. -/
theorem parseElement_selfclose (nm : String) (attrs : List (String × String))
    (rest : List Char) (fuel : Nat) (hf : 1 ≤ fuel)
    (hnm : attrKeyOk nm = true)
    (hkeys : ∀ p ∈ attrs, attrKeyOk p.1 = true) :
    parseElement fuel
      ('<' :: (nm.data ++ ((attrsStr attrs).data ++ '/' :: '>' :: rest))) =
      some (XNode.elem nm (escapedAttrs attrs) [], rest) := by
  obtain ⟨f, rfl⟩ : ∃ f, fuel = f + 1 := ⟨fuel - 1, by omega⟩
  obtain ⟨hnmne, hnmall⟩ := attrKeyOk_data hnm
  simp only [parseElement, List.head?_cons]
  rw [if_pos trivial, List.tail_cons]
  have e1 : takeName (nm.data ++ ((attrsStr attrs).data ++ '/' :: '>' :: rest)) =
      some (nm.data, (attrsStr attrs).data ++ '/' :: '>' :: rest) :=
    takeName_append hnmne hnmall (fun c hc => by
      rcases head?_attrsStr_append attrs _ c hc with rfl | hr
      · decide
      · simp only [List.head?_cons, Option.some.injEq] at hr
        subst hr
        decide)
  split
  next heq =>
    rw [e1] at heq
    simp at heq
  next nm' r1 heq =>
    rw [e1] at heq
    simp only [Option.some.injEq, Prod.mk.injEq] at heq
    obtain ⟨h1, h2⟩ := heq
    subst h1
    subst h2
    have e2 : parseAttrs (((attrsStr attrs).data ++ '/' :: '>' :: rest).length + 1)
        ((attrsStr attrs).data ++ '/' :: '>' :: rest) =
        some (escapedAttrs attrs, '/' :: '>' :: rest) := by
      refine parseAttrs_render attrs _ _ ?_ hkeys (Or.inr rfl)
      have := attrsStr_length_ge attrs
      simp only [List.length_append]
      omega
    split
    next heq2 =>
      rw [e2] at heq2
      simp at heq2
    next attrs' r2 heq2 =>
      rw [e2] at heq2
      simp only [Option.some.injEq, Prod.mk.injEq] at heq2
      obtain ⟨h3, h4⟩ := heq2
      subst h3
      subst h4
      rw [if_pos (show List.take 2 ('/' :: '>' :: rest) = ['/', '>'] from rfl)]
      simp

/-- Parse of a rendered open tag with children and its matching close
tag. -/
theorem parseElement_content (nm : String) (attrs : List (String × String))
    (inner rest : List Char) (kids : List XNode) (fuel : Nat) (hf : 1 ≤ fuel)
    (hnm : attrKeyOk nm = true)
    (hkeys : ∀ p ∈ attrs, attrKeyOk p.1 = true)
    (hkids : parseChildren (fuel - 1)
        (inner ++ '<' :: '/' :: (nm.data ++ '>' :: rest)) =
      some (kids, '<' :: '/' :: (nm.data ++ '>' :: rest))) :
    parseElement fuel
      ('<' :: (nm.data ++ ((attrsStr attrs).data ++ '>' ::
        (inner ++ '<' :: '/' :: (nm.data ++ '>' :: rest))))) =
      some (XNode.elem nm (escapedAttrs attrs) kids, rest) := by
  obtain ⟨f, rfl⟩ : ∃ f, fuel = f + 1 := ⟨fuel - 1, by omega⟩
  rw [Nat.add_sub_cancel] at hkids
  obtain ⟨hnmne, hnmall⟩ := attrKeyOk_data hnm
  simp only [parseElement, List.head?_cons]
  rw [if_pos trivial, List.tail_cons]
  have e1 : takeName (nm.data ++ ((attrsStr attrs).data ++ '>' ::
      (inner ++ '<' :: '/' :: (nm.data ++ '>' :: rest)))) =
      some (nm.data, (attrsStr attrs).data ++ '>' ::
        (inner ++ '<' :: '/' :: (nm.data ++ '>' :: rest))) :=
    takeName_append hnmne hnmall (fun c hc => by
      rcases head?_attrsStr_append attrs _ c hc with rfl | hr
      · decide
      · simp only [List.head?_cons, Option.some.injEq] at hr
        subst hr
        decide)
  split
  next heq =>
    rw [e1] at heq
    simp at heq
  next nm' r1 heq =>
    rw [e1] at heq
    simp only [Option.some.injEq, Prod.mk.injEq] at heq
    obtain ⟨h1, h2⟩ := heq
    subst h1
    subst h2
    have e2 : parseAttrs
        (((attrsStr attrs).data ++ '>' ::
          (inner ++ '<' :: '/' :: (nm.data ++ '>' :: rest))).length + 1)
        ((attrsStr attrs).data ++ '>' ::
          (inner ++ '<' :: '/' :: (nm.data ++ '>' :: rest))) =
        some (escapedAttrs attrs,
          '>' :: (inner ++ '<' :: '/' :: (nm.data ++ '>' :: rest))) := by
      refine parseAttrs_render attrs _ _ ?_ hkeys (Or.inl rfl)
      have := attrsStr_length_ge attrs
      simp only [List.length_append]
      omega
    split
    next heq2 =>
      rw [e2] at heq2
      simp at heq2
    next attrs' r2 heq2 =>
      rw [e2] at heq2
      simp only [Option.some.injEq, Prod.mk.injEq] at heq2
      obtain ⟨h3, h4⟩ := heq2
      subst h3
      subst h4
      rw [if_neg (show ¬(List.take 2 ('>' ::
          (inner ++ '<' :: '/' :: (nm.data ++ '>' :: rest))) = ['/', '>']) from by
        intro h
        have h0 : (List.take 2 ('>' ::
            (inner ++ '<' :: '/' :: (nm.data ++ '>' :: rest)))).head? =
            some '>' := rfl
        rw [h] at h0
        simp at h0)]
      rw [if_pos (show ('>' :: (inner ++ '<' :: '/' ::
          (nm.data ++ '>' :: rest))).head? = some '>' from rfl), List.tail_cons]
      split
      next heq3 =>
        rw [hkids] at heq3
        simp at heq3
      next kids' r3 heq3 =>
        rw [hkids] at heq3
        simp only [Option.some.injEq, Prod.mk.injEq] at heq3
        obtain ⟨h5, h6⟩ := heq3
        subst h5
        subst h6
        rw [if_pos (show (List.take 2 ('<' :: '/' :: (nm.data ++ '>' :: rest)) =
              ['<', '/']) ∧
            (List.take nm.data.length
              (List.drop 2 ('<' :: '/' :: (nm.data ++ '>' :: rest))) = nm.data) ∧
            ((List.drop nm.data.length
              (List.drop 2 ('<' :: '/' :: (nm.data ++ '>' :: rest)))).head? =
              some '>') from ?_)]
        · simp
        · refine ⟨rfl, ?_, ?_⟩
          · simp only [List.drop_succ_cons, List.drop_zero]
            exact List.take_left nm.data _
          · simp only [List.drop_succ_cons, List.drop_zero, List.drop_left]
            rfl

/-- The child parser stops in front of a close tag. -/
theorem parseChildren_stop (x : List Char) (f : Nat) (hf : 1 ≤ f) :
    parseChildren f ('<' :: '/' :: x) = some ([], '<' :: '/' :: x) := by
  obtain ⟨f', rfl⟩ : ∃ f', f = f' + 1 := ⟨f - 1, by omega⟩
  simp only [parseChildren]
  rw [if_neg (by simp),
    if_pos (show List.take 2 ('<' :: '/' :: x) = ['<', '/'] from rfl)]

/-- One element child followed by whatever the remaining children parse
to. -/
theorem parseChildren_elem (l r1 : List Char) (node : XNode) (kids : List XNode)
    (r2 : List Char) (f : Nat) (hf : 1 ≤ f)
    (hhead : l.head? = some '<') (hsecond : ¬(l.take 2 = ['<', '/']))
    (helem : parseElement (f - 1) l = some (node, r1))
    (hrest : parseChildren (f - 1) r1 = some (kids, r2)) :
    parseChildren f l = some (node :: kids, r2) := by
  obtain ⟨f', rfl⟩ : ∃ f', f = f' + 1 := ⟨f - 1, by omega⟩
  rw [Nat.add_sub_cancel] at helem hrest
  have hne : l ≠ [] := by
    intro h
    rw [h] at hhead
    simp at hhead
  simp only [parseChildren]
  rw [if_neg hne, if_neg hsecond, if_pos hhead]
  split
  next heq =>
    rw [helem] at heq
    simp at heq
  next node' r1' heq =>
    rw [helem] at heq
    simp only [Option.some.injEq, Prod.mk.injEq] at heq
    obtain ⟨h1, h2⟩ := heq
    subst h1
    subst h2
    split
    next heq2 =>
      rw [hrest] at heq2
      simp at heq2
    next kids' r2' heq2 =>
      rw [hrest] at heq2
      simp only [Option.some.injEq, Prod.mk.injEq] at heq2
      obtain ⟨h3, h4⟩ := heq2
      subst h3
      subst h4
      rfl

/-- One text child (no angle bracket, well-formed entities) in front of
input whose head is an opening bracket. -/
theorem parseChildren_text (txt l : List Char) (kids : List XNode)
    (r : List Char) (f : Nat) (hf : 1 ≤ f) (htxt : txt ≠ [])
    (hnoLt : ∀ c ∈ txt, ¬(c = '<')) (hamp : ampOk txt = true)
    (hlhead : l.head? = some '<')
    (hrest : parseChildren (f - 1) l = some (kids, r)) :
    parseChildren f (txt ++ l) =
      some (XNode.text (String.mk txt) :: kids, r) := by
  obtain ⟨f', rfl⟩ : ∃ f', f = f' + 1 := ⟨f - 1, by omega⟩
  rw [Nat.add_sub_cancel] at hrest
  rcases htx : txt with _ | ⟨c0, t'⟩
  · exact absurd htx htxt
  · have hc0 : ¬(c0 = '<') := hnoLt c0 (by rw [htx]; simp)
    rw [← htx]
    have htake : List.takeWhile (fun c => decide (c ≠ '<')) (txt ++ l) = txt :=
      takeWhile_append_of _ _
        (fun c hc => by
          simp only [decide_eq_true_eq]
          exact hnoLt c hc)
        (fun c hc => by
          rw [hlhead] at hc
          simp only [Option.some.injEq] at hc
          subst hc
          decide)
    simp only [parseChildren]
    rw [if_neg (by
      rw [htx]
      simp)]
    rw [if_neg (by
      intro h
      have h0 : (List.take 2 (txt ++ l)).head? = some c0 := by
        rw [htx]
        rfl
      rw [h] at h0
      simp only [List.head?_cons, Option.some.injEq] at h0
      exact hc0 h0.symm)]
    rw [if_neg (by
      rw [htx]
      simp only [List.cons_append, List.head?_cons, Option.some.injEq]
      exact fun h => hc0 h)]
    rw [htake, if_pos hamp, List.drop_left]
    split
    next heq =>
      rw [hrest] at heq
      simp at heq
    next kids' r' heq =>
      rw [hrest] at heq
      simp only [Option.some.injEq, Prod.mk.injEq] at heq
      obtain ⟨h1, h2⟩ := heq
      subst h1
      subst h2
      rfl

/-! ## Tag rendering shapes -/

theorem tag_data_selfclose (nm : String) (attrs : List (String × String))
    (rest : List Char) :
    (tag nm attrs true none).data ++ rest =
      '<' :: (nm.data ++ ((attrsStr attrs).data ++ '/' :: '>' :: rest)) := by
  simp [tag, data_append, List.append_assoc]

theorem tag_data_open (nm : String) (attrs : List (String × String))
    (rest : List Char) :
    (tag nm attrs false none).data ++ rest =
      '<' :: (nm.data ++ ((attrsStr attrs).data ++ '>' :: rest)) := by
  simp [tag, data_append, List.append_assoc]

theorem tag_data_content (nm : String) (attrs : List (String × String))
    (content : String) (rest : List Char) (hc : ¬(content = "")) :
    (tag nm attrs false (some content)).data ++ rest =
      '<' :: (nm.data ++ ((attrsStr attrs).data ++ '>' ::
        (content.data ++ '<' :: '/' :: (nm.data ++ '>' :: rest)))) := by
  simp [tag, if_neg hc, data_append, List.append_assoc]

/-! ## Failure body character facts -/

theorem failureBody_data (t : TestRec) :
    (failureBody t).data =
      escList t.errMessage.data ++
        (escList t.diff.data ++ '\n' :: escList t.errStack.data) := by
  simp [failureBody, escape, data_append, List.append_assoc]

theorem failureBody_ne_nil (t : TestRec) : (failureBody t).data ≠ [] := by
  rw [failureBody_data]
  intro h
  rcases List.append_eq_nil.1 h with ⟨-, h2⟩
  rcases List.append_eq_nil.1 h2 with ⟨-, h3⟩
  exact absurd h3 (by simp)

theorem failureBody_ne_empty (t : TestRec) : ¬(failureBody t = "") := by
  intro h
  have := failureBody_ne_nil t
  rw [h] at this
  exact this rfl

theorem failureBody_noLt (t : TestRec) :
    ∀ c ∈ (failureBody t).data, ¬(c = '<') := by
  rw [failureBody_data]
  intro c hc
  rw [List.mem_append] at hc
  rcases hc with hc | hc
  · exact (mem_escList hc).1
  · rw [List.mem_append] at hc
    rcases hc with hc | hc
    · exact (mem_escList hc).1
    · rw [List.mem_cons] at hc
      rcases hc with rfl | hc
      · decide
      · exact (mem_escList hc).1

theorem failureBody_ampOk (t : TestRec) : ampOk (failureBody t).data = true := by
  rw [failureBody_data, ampOk_escList, ampOk_escList,
    ampOk_cons_plain (by decide), ampOk_escList_nil]

/-- Parsing one rendered testcase line in front of any remainder yields
the raw testcase node. -/
theorem parseElement_testcase (t : TestRec) (rest : List Char) (fuel : Nat)
    (hf : 5 ≤ fuel) :
    parseElement fuel ((testcaseTag t).data ++ rest) =
      some (caseNodeRaw t, rest) := by
  have hkeys : ∀ p ∈ caseAttrs t, attrKeyOk p.1 = true := by
    intro p hp
    simp only [caseAttrs, List.mem_cons, List.not_mem_nil, or_false] at hp
    rcases hp with rfl | rfl | rfl
    · exact (by decide : attrKeyOk "classname" = true)
    · exact (by decide : attrKeyOk "name" = true)
    · exact (by decide : attrKeyOk "time" = true)
  rcases ho : t.outcome
  · -- passed
    simp only [testcaseTag, caseNodeRaw, ho,
      if_neg (show ¬(Outcome.passed = Outcome.failed) from by decide),
      if_neg (show ¬(Outcome.passed = Outcome.pending) from by decide)]
    rw [tag_data_selfclose]
    exact parseElement_selfclose "testcase" (caseAttrs t) rest fuel (by omega)
      (by decide) hkeys
  · -- failed
    simp only [testcaseTag, caseNodeRaw, ho,
      if_pos (show Outcome.failed = Outcome.failed from rfl), if_true]
    rw [tag_data_content "testcase" (caseAttrs t)
      (tag "failure" [] false (some (failureBody t))) rest (by
      intro h
      have h2 : (tag "failure" [] false (some (failureBody t))).data ++
          ([] : List Char) = _ :=
        tag_data_content "failure" [] (failureBody t) [] (failureBody_ne_empty t)
      rw [h] at h2
      simp at h2)]
    refine parseElement_content "testcase" (caseAttrs t) _ rest _ fuel (by omega)
      (by decide) hkeys ?_
    rw [tag_data_content "failure" [] (failureBody t) _ (failureBody_ne_empty t)]
    refine parseChildren_elem _ ('<' :: '/' :: ("testcase".data ++ '>' :: rest))
      _ _ _ _ (by omega) rfl ?_ ?_ ?_
    · intro h
      have h2 : List.take 2 ('<' :: ("failure".data ++ ((attrsStr []).data ++ '>' ::
          ((failureBody t).data ++ '<' :: '/' :: ("failure".data ++ '>' ::
            ('<' :: '/' :: ("testcase".data ++ '>' :: rest))))))) = ['<', 'f'] := rfl
      rw [h] at h2
      simp at h2
    · refine parseElement_content "failure" [] (failureBody t).data
        ('<' :: '/' :: ("testcase".data ++ '>' :: rest)) _ (fuel - 1 - 1)
        (by omega) (by decide) (by simp) ?_
      refine parseChildren_text _ _ _ _ _ (by omega) (failureBody_ne_nil t)
        (failureBody_noLt t) (failureBody_ampOk t) rfl ?_
      exact parseChildren_stop _ _ (by omega)
    · exact parseChildren_stop _ _ (by omega)
  · -- pending
    simp only [testcaseTag, caseNodeRaw, ho,
      if_neg (show ¬(Outcome.pending = Outcome.failed) from by decide),
      if_pos (show Outcome.pending = Outcome.pending from rfl), if_true]
    rw [tag_data_content "testcase" (caseAttrs t)
      (tag "skipped" [] true none) rest (by decide)]
    refine parseElement_content "testcase" (caseAttrs t) _ rest _ fuel (by omega)
      (by decide) hkeys ?_
    rw [tag_data_selfclose "skipped" []]
    refine parseChildren_elem _ ('<' :: '/' :: ("testcase".data ++ '>' :: rest))
      _ _ _ _ (by omega) rfl ?_ ?_ ?_
    · intro h
      have h2 : List.take 2 ('<' :: ("skipped".data ++ ((attrsStr []).data ++
          '/' :: '>' :: ('<' :: '/' :: ("testcase".data ++ '>' :: rest))))) =
          ['<', 's'] := rfl
      rw [h] at h2
      simp at h2
    · exact parseElement_selfclose "skipped" []
        ('<' :: '/' :: ("testcase".data ++ '>' :: rest)) (fuel - 1 - 1)
        (by omega) (by decide) (by simp)
    · exact parseChildren_stop _ _ (by omega)

theorem failureTag_ne_empty (t : TestRec) :
    ¬(tag "failure" [] false (some (failureBody t)) = "") := by
  intro h
  have h2 : (tag "failure" [] false (some (failureBody t))).data ++
      ([] : List Char) = _ :=
    tag_data_content "failure" [] (failureBody t) [] (failureBody_ne_empty t)
  rw [h] at h2
  simp at h2

theorem testcaseTag_shape (t : TestRec) :
    ∃ l, (testcaseTag t).data = '<' :: 't' :: l := by
  rw [testcaseTag]
  split
  · have h := tag_data_content "testcase" (caseAttrs t)
      (tag "failure" [] false (some (failureBody t))) [] (failureTag_ne_empty t)
    rw [List.append_nil] at h
    exact ⟨_, h⟩
  · split
    · have h := tag_data_content "testcase" (caseAttrs t)
        (tag "skipped" [] true none) [] (by decide)
      rw [List.append_nil] at h
      exact ⟨_, h⟩
    · have h := tag_data_selfclose "testcase" (caseAttrs t) []
      rw [List.append_nil] at h
      exact ⟨_, h⟩

theorem casesChunk_head (ts : List TestRec) (S : List Char)
    (hS : S.head? = some '<') :
    (casesChunk ts ++ S).head? = some '<' := by
  cases ts with
  | nil => simpa [casesChunk] using hS
  | cons t ts' =>
    obtain ⟨l, hl⟩ := testcaseTag_shape t
    rw [casesChunk, hl]
    simp

theorem casesChunk_len (ts : List TestRec) :
    2 * ts.length ≤ (casesChunk ts).length := by
  induction ts with
  | nil => simp [casesChunk]
  | cons t ts' ih =>
    obtain ⟨l, hl⟩ := testcaseTag_shape t
    rw [casesChunk, hl]
    simp only [List.length_append, List.length_cons]
    omega

theorem ampOk_newline : ampOk ['\n'] = true := by
  rw [ampOk_cons_plain (by decide)]
  simp [ampOk]

/-- Parse of the sequence of rendered testcase lines, each followed by
its newline, in front of a close tag. -/
theorem parseChildren_cases (tests : List TestRec) (rest' : List Char) (f : Nat)
    (hf : 2 * tests.length + 5 ≤ f) :
    parseChildren f (casesChunk tests ++ '<' :: '/' :: rest') =
      some (caseChildrenRaw tests, '<' :: '/' :: rest') := by
  induction tests generalizing f with
  | nil =>
    simp only [casesChunk, List.nil_append, caseChildrenRaw]
    exact parseChildren_stop _ _ (by omega)
  | cons t ts ih =>
    simp only [List.length_cons] at hf
    rw [casesChunk, caseChildrenRaw]
    simp only [List.append_assoc, List.cons_append]
    refine parseChildren_elem _ ('\n' :: (casesChunk ts ++ '<' :: '/' :: rest'))
      _ _ _ _ (by omega) ?_ ?_ ?_ ?_
    · obtain ⟨l, hl⟩ := testcaseTag_shape t
      rw [hl]
      simp
    · obtain ⟨l, hl⟩ := testcaseTag_shape t
      intro h
      have h2 : (['<', 't'] : List Char) = ['<', '/'] := by
        rw [← h, hl]
        rfl
      simp at h2
    · exact parseElement_testcase t _ _ (by omega)
    · rw [show '\n' :: (casesChunk ts ++ '<' :: '/' :: rest') =
        ['\n'] ++ (casesChunk ts ++ '<' :: '/' :: rest') from rfl]
      refine parseChildren_text _ _ _ _ _ (by omega) (by simp)
        (by decide) ampOk_newline (casesChunk_head ts _ rfl) ?_
      exact ih _ (by omega)

/-- The character stream of the whole document. -/
theorem writeAll_tail_data (tests : List TestRec) :
    (writeAll ((tests.map testcaseTag) ++ ["</testsuite>"])).data =
      casesChunk tests ++ '<' :: '/' :: ("testsuite".data ++ '>' :: ['\n']) := by
  induction tests with
  | nil => rfl
  | cons t ts ih =>
    simp only [List.map_cons, List.cons_append, writeAll, data_append, ih,
      casesChunk, List.append_assoc]
    simp
    rw [ih]
    rfl

theorem xmlDocument_data (sn ts : String) (s : Stats) (tests : List TestRec) :
    (xmlDocument sn ts s tests).data =
      '<' :: ("testsuite".data ++ ((attrsStr (rootAttrs sn ts s)).data ++ '>' ::
        (('\n' :: casesChunk tests) ++
          '<' :: '/' :: ("testsuite".data ++ '>' :: ['\n'])))) := by
  rw [xmlDocument, runEndLines, List.cons_append, writeAll]
  simp only [data_append, writeAll_tail_data]
  rw [rootOpenTag, List.append_assoc, tag_data_open]
  simp

/-! ## Decoding the parsed document -/

theorem unescList_escList_nil (l : List Char) : unescList (escList l) = l := by
  have h := unescList_escList l []
  rw [List.append_nil] at h
  rw [h]
  simp [unescList]

theorem unescape_newline : unescape "\n" = "\n" := by
  rw [unescape]
  rw [show ("\n" : String).data = ['\n'] from rfl,
    unescList_cons_plain (by decide)]
  simp [unescList]

theorem unescape_failureBody (t : TestRec) :
    unescape (failureBody t) =
      t.errMessage ++ t.diff ++ "\n" ++ t.errStack := by
  have hk : unescList (escList t.errStack.data) = t.errStack.data :=
    unescList_escList_nil _
  rw [unescape, failureBody_data, unescList_escList, unescList_escList,
    unescList_cons_plain (by decide), hk]
  have hdata : (t.errMessage ++ t.diff ++ "\n" ++ t.errStack).data =
      t.errMessage.data ++ (t.diff.data ++ '\n' :: t.errStack.data) := by
    simp [data_append]
  calc String.mk (t.errMessage.data ++ (t.diff.data ++ '\n' :: t.errStack.data))
      = String.mk ((t.errMessage ++ t.diff ++ "\n" ++ t.errStack).data) := by
        rw [hdata]
    _ = _ := mk_data _

theorem decode_escapedAttrs (attrs : List (String × String)) :
    (escapedAttrs attrs).map (fun p => (p.1, unescape p.2)) = attrs := by
  induction attrs with
  | nil => rfl
  | cons p rest ih =>
    simp [escapedAttrs, unescape_escape] at ih ⊢
    exact ih

theorem decodeNode_caseNodeRaw (t : TestRec) :
    decodeNode (caseNodeRaw t) = caseNodeDecoded t := by
  rcases ho : t.outcome
  · simp only [caseNodeRaw, caseNodeDecoded, ho,
      if_neg (show ¬(Outcome.passed = Outcome.failed) from by decide),
      if_neg (show ¬(Outcome.passed = Outcome.pending) from by decide)]
    simp [decodeNode, decodeKids, decode_escapedAttrs]
  · simp only [caseNodeRaw, caseNodeDecoded, ho,
      if_pos (show Outcome.failed = Outcome.failed from rfl), if_true]
    simp [decodeNode, decodeKids, decode_escapedAttrs, unescape_failureBody]
  · simp only [caseNodeRaw, caseNodeDecoded, ho,
      if_neg (show ¬(Outcome.pending = Outcome.failed) from by decide),
      if_pos (show Outcome.pending = Outcome.pending from rfl), if_true]
    simp [decodeNode, decodeKids, decode_escapedAttrs]

theorem decodeKids_caseChildren (tests : List TestRec) :
    decodeKids (caseChildrenRaw tests) = caseChildrenDecoded tests := by
  induction tests with
  | nil => rfl
  | cons t ts ih =>
    rw [caseChildrenRaw, caseChildrenDecoded]
    rw [decodeKids, decodeKids, decodeNode_caseNodeRaw, ih]
    rw [show decodeNode (XNode.text "\n") = XNode.text "\n" from by
      rw [decodeNode, unescape_newline]]

theorem decodeNode_docNodeRaw (sn ts : String) (s : Stats)
    (tests : List TestRec) :
    decodeNode (docNodeRaw sn ts s tests) = docNodeDecoded sn ts s tests := by
  rw [docNodeRaw, docNodeDecoded, decodeNode, decode_escapedAttrs]
  rw [decodeKids, decodeKids_caseChildren]
  rw [show decodeNode (XNode.text "\n") = XNode.text "\n" from by
    rw [decodeNode, unescape_newline]]

/-! ## Whole-document parse -/

theorem rootAttrs_keys_ok (sn ts : String) (s : Stats) :
    ∀ p ∈ rootAttrs sn ts s, attrKeyOk p.1 = true := by
  intro p hp
  simp only [rootAttrs, List.mem_cons, List.not_mem_nil, or_false] at hp
  rcases hp with rfl | rfl | rfl | rfl | rfl | rfl | rfl
  · exact (by decide : attrKeyOk "name" = true)
  · exact (by decide : attrKeyOk "tests" = true)
  · exact (by decide : attrKeyOk "failures" = true)
  · exact (by decide : attrKeyOk "errors" = true)
  · exact (by decide : attrKeyOk "skipped" = true)
  · exact (by decide : attrKeyOk "timestamp" = true)
  · exact (by decide : attrKeyOk "time" = true)

theorem xmlDocument_len (sn ts : String) (s : Stats) (tests : List TestRec) :
    2 * tests.length + 7 ≤ (xmlDocument sn ts s tests).data.length := by
  rw [xmlDocument_data]
  have := casesChunk_len tests
  simp only [List.length_cons, List.length_append]
  omega

/-- A standard XML parser accepts the emitted document, and reads exactly
the raw document tree. -/
theorem parseDoc_xmlDocument (sn ts : String) (s : Stats)
    (tests : List TestRec) :
    parseDoc (xmlDocument sn ts s tests) = some (docNodeRaw sn ts s tests) := by
  have hlen := xmlDocument_len sn ts s tests
  rw [parseDoc]
  have hparse : parseElement (xmlDocument sn ts s tests).data.length
      (xmlDocument sn ts s tests).data =
      some (docNodeRaw sn ts s tests, ['\n']) := by
    rw [xmlDocument_data]
    refine parseElement_content "testsuite" (rootAttrs sn ts s)
      ('\n' :: casesChunk tests) ['\n'] _ _ ?_ (by decide)
      (rootAttrs_keys_ok sn ts s) ?_
    · rw [← xmlDocument_data]
      omega
    · rw [show ('\n' :: casesChunk tests) ++
        '<' :: '/' :: ("testsuite".data ++ '>' :: ['\n']) =
        ['\n'] ++ (casesChunk tests ++
          '<' :: '/' :: ("testsuite".data ++ '>' :: ['\n'])) from by simp]
      refine parseChildren_text _ _ _ _ _ ?_ (by simp) (by decide)
        ampOk_newline (casesChunk_head tests _ rfl) ?_
      · have := casesChunk_len tests
        simp only [List.length_cons, List.length_append]
        omega
      · refine parseChildren_cases tests _ _ ?_
        have := casesChunk_len tests
        simp only [List.length_cons, List.length_append]
        omega
  rw [hparse]
  simp

/-! ## C2: round-trip escaping -/

/-- C2: for every suite name, timestamp, summary and list of test records
(titles, classifier paths, messages and stacks fully arbitrary, in
particular containing the ampersand, angle brackets or double quotes),
the serialized document is accepted by a standard XML parser, the raw
tree carries the escaped strings in attribute values and text content,
and entity-decoding the parsed tree restores every original string;
decoding an escaped string always gives back the original. -/
theorem c2_roundtrip_escaping (sn ts : String) (s : Stats)
    (tests : List TestRec) :
    parseDoc (xmlDocument sn ts s tests) = some (docNodeRaw sn ts s tests) ∧
    decodeNode (docNodeRaw sn ts s tests) = docNodeDecoded sn ts s tests ∧
    (∀ str : String, unescape (escape str) = str) :=
  ⟨parseDoc_xmlDocument sn ts s tests, decodeNode_docNodeRaw sn ts s tests,
    fun str => unescape_escape str⟩

theorem str_ext {a b : String} (h : a.data = b.data) : a = b := by
  cases a
  cases b
  simp only [data_mk] at h
  rw [h]

theorem testcaseTag_len (t : TestRec) : 5 ≤ (testcaseTag t).data.length := by
  have h8 : ("testcase".data).length = 8 := rfl
  rw [testcaseTag]
  split
  · have h := tag_data_content "testcase" (caseAttrs t)
      (tag "failure" [] false (some (failureBody t))) [] (failureTag_ne_empty t)
    rw [List.append_nil] at h
    rw [h]
    simp only [List.length_cons, List.length_append, h8]
    omega
  · split
    · have h := tag_data_content "testcase" (caseAttrs t)
        (tag "skipped" [] true none) [] (by decide)
      rw [List.append_nil] at h
      rw [h]
      simp only [List.length_cons, List.length_append, h8]
      omega
    · have h := tag_data_selfclose "testcase" (caseAttrs t) []
      rw [List.append_nil] at h
      rw [h]
      simp only [List.length_cons, List.length_append, h8]
      omega

/-! ## C3: testcase element shape -/

/-- C3: each buffered record's line parses as a testcase element whose
shape is fixed by the outcome: a failed record carries exactly one nested
failure element (itself carrying one text node); a pending record carries
exactly one nested skipped element, rendered self-closing in the text; a
passed record carries no children and its line ends self-closing; in all
cases the attributes are exactly classname, name and time, holding the
escaped classifier path, the escaped title and the rendered seconds. -/
theorem c3_testcase_shape (t : TestRec) :
    parseElement ((testcaseTag t).data.length) (testcaseTag t).data =
      some (caseNodeRaw t, []) ∧
    decodeNode (caseNodeRaw t) = caseNodeDecoded t ∧
    caseAttrs t = [("classname", t.classname), ("name", t.title),
      ("time", jsDiv1000Str t.duration)] ∧
    (t.outcome = Outcome.failed →
      caseNodeRaw t = XNode.elem "testcase" (escapedAttrs (caseAttrs t))
        [XNode.elem "failure" [] [XNode.text (failureBody t)]]) ∧
    (t.outcome = Outcome.pending →
      caseNodeRaw t = XNode.elem "testcase" (escapedAttrs (caseAttrs t))
        [XNode.elem "skipped" [] []] ∧
      ∃ pre, testcaseTag t = pre ++ "<skipped/></testcase>") ∧
    (t.outcome = Outcome.passed →
      caseNodeRaw t = XNode.elem "testcase" (escapedAttrs (caseAttrs t)) [] ∧
      ∃ pre, testcaseTag t = pre ++ "/>") := by
  refine ⟨?_, decodeNode_caseNodeRaw t, rfl, ?_, ?_, ?_⟩
  · have h := parseElement_testcase t [] ((testcaseTag t).data.length)
      (testcaseTag_len t)
    rwa [List.append_nil] at h
  · intro ho
    simp only [caseNodeRaw, ho,
      if_pos (show Outcome.failed = Outcome.failed from rfl), if_true]
  · intro ho
    constructor
    · simp only [caseNodeRaw, ho,
        if_neg (show ¬(Outcome.pending = Outcome.failed) from by decide),
        if_pos (show Outcome.pending = Outcome.pending from rfl), if_true]
    · refine ⟨String.mk ('<' :: ("testcase".data ++
        ((attrsStr (caseAttrs t)).data ++ ['>']))), str_ext ?_⟩
      rw [data_append, data_mk]
      simp only [testcaseTag, ho,
        if_neg (show ¬(Outcome.pending = Outcome.failed) from by decide),
        if_pos (show Outcome.pending = Outcome.pending from rfl), if_true]
      have h := tag_data_content "testcase" (caseAttrs t)
        (tag "skipped" [] true none) [] (by decide)
      rw [List.append_nil] at h
      rw [h, show tag "skipped" [] true none = "<skipped/>" from by decide]
      simp [List.append_assoc]
  · intro ho
    constructor
    · simp only [caseNodeRaw, ho,
        if_neg (show ¬(Outcome.passed = Outcome.failed) from by decide),
        if_neg (show ¬(Outcome.passed = Outcome.pending) from by decide)]
    · refine ⟨"<" ++ "testcase" ++ attrsStr (caseAttrs t), ?_⟩
      simp only [testcaseTag, ho,
        if_neg (show ¬(Outcome.passed = Outcome.failed) from by decide),
        if_neg (show ¬(Outcome.passed = Outcome.pending) from by decide)]
      rfl

/-- C3 witness: a concrete failed record parses to a testcase with one
nested failure element; a concrete pending record to one nested skipped
element. -/
theorem c3_testcase_shape_witness :
    caseNodeRaw ⟨"t2", "A", none, Outcome.failed, "slow", "x<y", "stk", ""⟩ =
      XNode.elem "testcase"
        (escapedAttrs (caseAttrs
          ⟨"t2", "A", none, Outcome.failed, "slow", "x<y", "stk", ""⟩))
        [XNode.elem "failure" []
          [XNode.text (failureBody
            ⟨"t2", "A", none, Outcome.failed, "slow", "x<y", "stk", ""⟩)]] ∧
    caseNodeRaw ⟨"t3", "A", some 0, Outcome.pending, "", "", "", ""⟩ =
      XNode.elem "testcase"
        (escapedAttrs (caseAttrs
          ⟨"t3", "A", some 0, Outcome.pending, "", "", "", ""⟩))
        [XNode.elem "skipped" [] []] := by
  constructor
  · exact (c3_testcase_shape
      ⟨"t2", "A", none, Outcome.failed, "slow", "x<y", "stk", ""⟩).2.2.2.1 rfl
  · exact ((c3_testcase_shape
      ⟨"t3", "A", some 0, Outcome.pending, "", "", "", ""⟩).2.2.2.2.1 rfl).1
